import Mathlib

/-!
# torsniff: a verification development

A shallow embedding of `torsniff.go` (the crawl supervisor, the metadata parser,
the keyword filter, the on-disk path layout and the byte-count printer) together
with the theorems that settle the claims of the specification.

Conventions of the embedding

* a Go `string` / `[]byte` is a list of bytes (`GoString`);
* a Go `int64` is an `Int`, with `wrap64` applied wherever the program computes
  a sum or a product that could leave the 64-bit range;
* a Go expression that can panic (slice or index out of range) returns `Option`;
* the imported packages are modelled next to the code that calls them, each
  with a pointer to the Go function it stands for.
-/

namespace Torsniff

/-! ## Strings and machine integers -/

/-- A Go string: an immutable sequence of bytes (not necessarily valid UTF-8). -/
abbrev GoString := List UInt8

/-- The bytes of an ASCII literal. -/
def ascii (s : String) : GoString := s.toList.map (fun c => UInt8.ofNat c.toNat)

/-- Two's-complement wrap-around of a mathematical integer into the range of `int64`. -/
def wrap64 (x : Int) : Int := (x + 2 ^ 63) % 2 ^ 64 - 2 ^ 63

/-- The argument is representable as an `int64`. -/
def IsInt64 (x : Int) : Prop := -2 ^ 63 ≤ x ∧ x < 2 ^ 63

instance (x : Int) : Decidable (IsInt64 x) := by
  unfold IsInt64
  infer_instance

/-- The decimal digits of a natural number, most significant first, produced with
`fuel` divisions by ten at most. -/
def digitsAux : Nat → Nat → GoString → GoString
  | 0, _, acc => acc
  | fuel + 1, n, acc =>
    if n < 10 then UInt8.ofNat (48 + n) :: acc
    else digitsAux fuel (n / 10) (UInt8.ofNat (48 + n % 10) :: acc)

/-- The function `strconv.Itoa` on a natural number. -/
def natDigits (n : Nat) : GoString := digitsAux (n + 1) n []

/-- The verb `%d` (and `fmt.Sprint`) on an integer: the decimal digits, with a leading
minus sign for a negative number. -/
def fmtInt (x : Int) : GoString :=
  if x < 0 then 45 :: natDigits (-x).toNat else natDigits x.toNat

/-! ## `ByteCountSI` (torsniff.go, lines 48-60) -/

/-- The constant `unit` of `ByteCountSI`. -/
def unit : Int := 1024

/-- What `ByteCountSI` hands to `fmt.Sprintf`: either the `"%dB"` rendering of `b`, or the
operands of `"%.1f%c"`, that is the quotient `float64(b)/float64(div)` (kept as the pair
`b`, `div`; the floating-point rendering is not modelled) and the unit letter. -/
inductive ByteCount where
  | plain (text : GoString)
  | scaled (b div : Int) (letter : UInt8)
deriving DecidableEq, Repr

/-- The loop `for n := b / unit; n >= unit; n /= unit { div *= unit; exp++ }`,
entered with the current `n`, `div` and `exp`; it returns the final `div` and `exp`.
The product `div *= unit` is an `int64` product. -/
def byteCountLoop (n div : Int) (exp : Nat) : Int × Nat :=
  if h : n ≥ unit then
    byteCountLoop (n.tdiv unit) (wrap64 (div * unit)) (exp + 1)
  else
    (div, exp)
termination_by n.toNat
decreasing_by
  simp only [unit] at h ⊢
  have h1 : n.tdiv 1024 = n / 1024 := Int.tdiv_eq_ediv (by omega) (by norm_num)
  rw [h1]
  omega

/-- The function `ByteCountSI`. `none` stands for the run-time panic of the index
expression `"kMGTPE"[exp]`. -/
def ByteCountSI (b : Int) : Option ByteCount :=
  if b < unit then
    some (.plain (fmtInt b ++ ascii "B"))
  else
    let r := byteCountLoop (b.tdiv unit) unit 0
    match (ascii "kMGTPE")[r.2]? with
    | none => none
    | some letter => some (.scaled b r.1 letter)

/-! ## Decoded bencode values -/

/-- A value as the bencode package hands it over in an `interface{}`: a `string`, an
integer, a `[]interface{}` or a `map[string]interface{}`. A map is kept as an association
list in ascending key order, the order in which the encoder and `fmt` visit it. -/
inductive Value where
  | str (s : GoString)
  | int (i : Int)
  | list (l : List Value)
  | dict (d : List (GoString × Value))

/-- The Go type `map[string]interface{}`. -/
abbrev Dict := List (GoString × Value)

/-- The map index expression `dict[key]`; `none` is the nil interface of an absent key. -/
def Dict.index (dict : Dict) (key : GoString) : Option Value := dict.lookup key

/-- The type assertion `x.(string)`. -/
def asString : Option Value → Option GoString
  | some (.str s) => some s
  | _ => none

/-- The type assertion `x.(int64)`: it holds for an integer of the `int64` range only
(a larger one has another dynamic type). -/
def asInt64 : Option Value → Option Int
  | some (.int i) => if IsInt64 i then some i else none
  | _ => none

/-- The type assertion `x.([]interface{})`. -/
def asList : Option Value → Option (List Value)
  | some (.list l) => some l
  | _ => none

/-- The type assertion `x.(map[string]interface{})`. -/
def asMap : Option Value → Option Dict
  | some (.dict d) => some d
  | _ => none

/-- The function `strings.Join(elems, sep)`. -/
def Join (elems : List GoString) (sep : GoString) : GoString := sep.intercalate elems

mutual
/-- The function `fmt.Sprint(v)` on a decoded value: a string is printed as it is, an integer
in decimal, a slice as `[e1 e2 ...]` and a map as `map[k1:v1 k2:v2 ...]` in key order. -/
def Sprint : Value → GoString
  | .str s => s
  | .int i => fmtInt i
  | .list l => ascii "[" ++ SprintElems l ++ ascii "]"
  | .dict d => ascii "map[" ++ SprintEntries d ++ ascii "]"
/-- The elements of a slice under `fmt.Sprint`, separated by one space. -/
def SprintElems : List Value → GoString
  | [] => []
  | v :: vs =>
    match vs with
    | [] => Sprint v
    | _ :: _ => Sprint v ++ ascii " " ++ SprintElems vs
/-- The entries of a map under `fmt.Sprint`, separated by one space. -/
def SprintEntries : List (GoString × Value) → GoString
  | [] => []
  | (k, v) :: es =>
    match es with
    | [] => k ++ ascii ":" ++ Sprint v
    | _ :: _ => k ++ ascii ":" ++ Sprint v ++ ascii " " ++ SprintEntries es
end

/-! ## The bencode codec (package `bencode`, not part of torsniff.go) -/

namespace Bencode

/-- An ASCII decimal digit. -/
def isDigit (c : UInt8) : Bool := decide (48 ≤ c) && decide (c ≤ 57)

/-- Reads the longest run of decimal digits, accumulating its value. -/
def readDigits : GoString → Nat → Nat × GoString
  | [], acc => (acc, [])
  | c :: cs, acc =>
    if isDigit c then readDigits cs (acc * 10 + (c.toNat - 48)) else (acc, c :: cs)

/-- Reads a non-empty run of decimal digits; `none` when the input does not start with
a digit. -/
def readNat : GoString → Option (Nat × GoString)
  | [] => none
  | c :: cs => if isDigit c then some (readDigits (c :: cs) 0) else none

/-- Reads the rest of an integer after its `i`: an optional minus sign, digits, `e`. -/
def readInt : GoString → Option (Int × GoString)
  | [] => none
  | c :: cs =>
    if c = 45 then
      match readNat cs with
      | some (n, d :: rest) => if d = 101 then some (-(n : Int), rest) else none
      | _ => none
    else
      match readNat (c :: cs) with
      | some (n, d :: rest) => if d = 101 then some ((n : Int), rest) else none
      | _ => none

/-- Reads a byte string `<length>:<bytes>`; `none` on a non-digit length prefix and on
truncated input. -/
def readString (input : GoString) : Option (GoString × GoString) :=
  match readNat input with
  | some (n, d :: rest) =>
    if d = 58 ∧ n ≤ rest.length then some (rest.take n, rest.drop n) else none
  | _ => none

/-- Go's `<` on strings: the lexicographic order of the bytes. -/
def keyLt : GoString → GoString → Bool
  | [], [] => false
  | [], _ :: _ => true
  | _ :: _, [] => false
  | a :: as, b :: bs => decide (a < b) || (decide (a = b) && keyLt as bs)

/-- Adds an entry to a map kept in ascending key order; `none` on a duplicate key. -/
def insertEntry (key : GoString) (v : Value) : Dict → Option Dict
  | [] => some [(key, v)]
  | (k, x) :: rest =>
    if keyLt key k then some ((key, v) :: (k, x) :: rest)
    else if key = k then none
    else
      match insertEntry key v rest with
      | some r => some ((k, x) :: r)
      | none => none

/-- Builds the map of the entries read from a dictionary; `none` on a duplicate key. -/
def buildDict : List (GoString × Value) → Option Dict
  | [] => some []
  | (k, v) :: es =>
    match buildDict es with
    | some d => insertEntry k v d
    | none => none

/-- The keys of the entries are in strictly ascending order. -/
def ascending : List (GoString × Value) → Bool
  | [] => true
  | (k, _) :: es =>
    match es with
    | [] => true
    | (k2, _) :: _ => keyLt k k2 && ascending es

mutual
/-- Modelled from the spec: the bencode decoder of section 4.1 (the package
`github.com/marksamman/bencode` is not under src/). It reads one value of the four kinds
off the front of the input and returns it with the unread rest; it fails on truncated
input, a non-digit length prefix, an unterminated container, a duplicate dictionary key
and, in strict mode only, on keys that are not in ascending order. `fuel` bounds the
nesting; `decodeTop` supplies enough of it. -/
def decodeValue (strict : Bool) : Nat → GoString → Option (Value × GoString)
  | 0, _ => none
  | _ + 1, [] => none
  | fuel + 1, c :: rest =>
    if c = 105 then
      match readInt rest with
      | some (i, r) => some (.int i, r)
      | none => none
    else if c = 108 then
      match decodeElems strict fuel rest with
      | some (l, r) => some (.list l, r)
      | none => none
    else if c = 100 then
      match decodeEntries strict fuel rest with
      | some (es, r) =>
        if strict && !ascending es then none
        else
          match buildDict es with
          | some d => some (.dict d, r)
          | none => none
      | none => none
    else
      match readString (c :: rest) with
      | some (s, r) => some (.str s, r)
      | none => none
/-- The elements of a list up to its closing `e`. -/
def decodeElems (strict : Bool) : Nat → GoString → Option (List Value × GoString)
  | 0, _ => none
  | _ + 1, [] => none
  | fuel + 1, c :: rest =>
    if c = 101 then some ([], rest)
    else
      match decodeValue strict fuel (c :: rest) with
      | none => none
      | some (v, r) =>
        match decodeElems strict fuel r with
        | none => none
        | some (vs, r2) => some (v :: vs, r2)
/-- The key-value entries of a dictionary up to its closing `e`, in input order. -/
def decodeEntries (strict : Bool) :
    Nat → GoString → Option (List (GoString × Value) × GoString)
  | 0, _ => none
  | _ + 1, [] => none
  | fuel + 1, c :: rest =>
    if c = 101 then some ([], rest)
    else
      match readString (c :: rest) with
      | none => none
      | some (k, r) =>
        match decodeValue strict fuel r with
        | none => none
        | some (v, r2) =>
          match decodeEntries strict fuel r2 with
          | none => none
          | some (es, r3) => some ((k, v) :: es, r3)
end

/-- Modelled from the spec: decoding of a whole input with the given strictness. The
result type of `bencode.Decode` is a map, so the input has to hold a dictionary; bytes
after it are not looked at. -/
def decodeTop (strict : Bool) (input : GoString) : Option Dict :=
  match decodeValue strict (input.length + 1) input with
  | some (.dict d, _) => some d
  | _ => none

/-- Modelled from the spec: `bencode.Decode` as torsniff.go calls it, in the tolerant
mode of section 4.1 (the one call expression serves `parseTorrent` and `saveTorrent`). -/
def Decode (input : GoString) : Option Dict := decodeTop false input

mutual
/-- Modelled from the spec: the bencode encoder of section 4.1 (package
`github.com/marksamman/bencode`, not under src/): a byte string is `<length>:<bytes>`,
an integer `i<decimal>e`, a list `l...e`, a dictionary `d...e` with its entries in
lexicographic key order (the order in which a `Dict` is kept). -/
def encodeValue : Value → GoString
  | .str s => natDigits s.length ++ 58 :: s
  | .int i => 105 :: fmtInt i ++ [101]
  | .list l => 108 :: encodeElems l ++ [101]
  | .dict d => 100 :: encodeEntries d ++ [101]
/-- The concatenated encodings of the elements of a list. -/
def encodeElems : List Value → GoString
  | [] => []
  | v :: vs => encodeValue v ++ encodeElems vs
/-- The concatenated encodings of the entries of a dictionary. -/
def encodeEntries : List (GoString × Value) → GoString
  | [] => []
  | (k, v) :: es => (natDigits k.length ++ 58 :: k) ++ encodeValue v ++ encodeEntries es
end

/-- Modelled from the spec: `bencode.Encode`, the encoding of a map. -/
def Encode (dict : Dict) : GoString := encodeValue (.dict dict)

/-- The unread input does not go on with a digit. -/
def stops (rest : GoString) : Prop := ∀ c cs, rest = c :: cs → isDigit c = false

mutual
/-- The keys of every dictionary inside the value are in strictly ascending order: the
value is one a decoder can return, and the encoder writes it in canonical form. -/
def canonical : Value → Bool
  | .str _ => true
  | .int _ => true
  | .list l => canonicalElems l
  | .dict d => ascending d && canonicalEntries d
/-- Every element of the list is canonical. -/
def canonicalElems : List Value → Bool
  | [] => true
  | v :: vs => canonical v && canonicalElems vs
/-- Every value of the entries is canonical. -/
def canonicalEntries : List (GoString × Value) → Bool
  | [] => true
  | (_, v) :: es => canonical v && canonicalEntries es
end

end Bencode

/-! ## `parseTorrent` (torsniff.go, lines 32-46 and 73-129) -/

/-- The struct `tfile`. -/
structure tfile where
  name : GoString
  length : Int
deriving DecidableEq, Repr

/-- The struct `torrent`; `files` holds the pointed-to `tfile` values in slice order. -/
structure torrent where
  infohashHex : GoString
  name : GoString
  length : Int
  files : List tfile
deriving DecidableEq, Repr

/-- The path of one file: `path.utf-8` when it is a list, else `path` when it is a list,
else the zero value of `filename`; every element goes through `fmt.Sprint` and the
results are joined with `/`. -/
def fileName (file : Dict) : GoString :=
  match asList (file.index (ascii "path.utf-8")) with
  | some inter => Join (inter.map Sprint) (ascii "/")
  | none =>
    match asList (file.index (ascii "path")) with
    | some inter => Join (inter.map Sprint) (ascii "/")
    | none => []

/-- The closure `extractFiles`, acting on the two variables it captures and updates:
`totalSize` and `t.files`. -/
def extractFiles (state : Int × List tfile) (file : Dict) : Int × List tfile :=
  let filename := fileName file
  match asInt64 (file.index (ascii "length")) with
  | some length => (wrap64 (state.1 + length), state.2 ++ [{ name := filename, length := length }])
  | none => (state.1, state.2 ++ [{ name := filename, length := 0 }])

/-- The loop `for _, file := range files` with its type assertion on every element. -/
def extractAll (files : List Value) : Int × List tfile :=
  files.foldl
    (fun state file =>
      match asMap (some file) with
      | some f => extractFiles state f
      | none => state)
    (0, [])

/-- The function `parseTorrent`, given the decoder `bencode.Decode` as `Decode`;
`none` is the error return. -/
def parseTorrent (Decode : GoString → Option Dict) (meta infohashHex : GoString) :
    Option torrent :=
  match Decode meta with
  | none => none
  | some dict =>
    let name : GoString :=
      match asString (dict.index (ascii "name.utf-8")) with
      | some name => name
      | none =>
        match asString (dict.index (ascii "name")) with
        | some name => name
        | none => []
    let length : Int :=
      match asInt64 (dict.index (ascii "length")) with
      | some length => length
      | none => 0
    let extracted : Int × List tfile :=
      match asList (dict.index (ascii "files")) with
      | some files => extractAll files
      | none => (0, [])
    let totalSize := extracted.1
    let files := extracted.2
    let length := if length = 0 then totalSize else length
    let files := if files.length = 0 then [{ name := name, length := length }] else files
    some { infohashHex := infohashHex, name := name, length := length, files := files }

/-! ## The keyword filter (torsniff.go, lines 25-30, 144-156 and 201-212) -/

/-- The constant `minLength`. -/
def minLength : Int := 10 * 1024 * 1024

/-- The function `strings.ToLower`: a string of ASCII bytes only is returned as it is when
it has no upper-case letter, and with `'a' - 'A'` added to every upper-case letter
otherwise; a string with a byte from `utf8.RuneSelf` on goes through
`Map(unicode.ToLower, s)`, which the parameter `unicodeLower` stands for. -/
def ToLower (unicodeLower : GoString → GoString) (s : GoString) : GoString :=
  if s.all (fun c => decide (c < 128)) then
    if s.any (fun c => decide (65 ≤ c) && decide (c ≤ 90)) then
      s.map (fun c => if 65 ≤ c ∧ c ≤ 90 then c + 32 else c)
    else s
  else unicodeLower s

/-- The function `strings.Contains(s, substr)`: `substr` occurs at some offset of `s`. -/
def Contains : GoString → GoString → Bool
  | [], substr => substr.isEmpty
  | c :: cs, substr => substr.isPrefixOf (c :: cs) || Contains cs substr

/-- The table `asciiSpace` of package `strings`: tab, line feed, vertical tab, form feed,
carriage return and space. -/
def asciiSpace (c : UInt8) : Bool :=
  c == 9 || c == 10 || c == 11 || c == 12 || c == 13 || c == 32

/-- The second loop of `strings.TrimSpace`, run on the reversed string: it drops ASCII white
space from the end and hands the string to `TrimRightFunc(s, unicode.IsSpace)` (the
parameter `unicodeTrimRight`) when it meets a non-ASCII byte. -/
def trimSpaceEnd (unicodeTrimRight : GoString → GoString) : GoString → GoString
  | [] => []
  | c :: cs =>
    if c ≥ 128 then unicodeTrimRight (c :: cs).reverse
    else if asciiSpace c then trimSpaceEnd unicodeTrimRight cs
    else (c :: cs).reverse

/-- The function `strings.TrimSpace`: the first loop drops ASCII white space from the start
and hands the rest to `TrimFunc(s, unicode.IsSpace)` (the parameter `unicodeTrim`) when it
meets a non-ASCII byte; the second loop trims the end. -/
def TrimSpace (unicodeTrim unicodeTrimRight : GoString → GoString) : GoString → GoString
  | [] => []
  | c :: cs =>
    if c ≥ 128 then unicodeTrim (c :: cs)
    else if asciiSpace c then TrimSpace unicodeTrim unicodeTrimRight cs
    else trimSpaceEnd unicodeTrimRight (c :: cs).reverse

/-- The function `readKeywords`, acting on the global `keywords`. `file` is `none` when
`os.Open` fails, and otherwise the lines the scanner yields, in order. -/
def readKeywords (unicodeTrim unicodeTrimRight : GoString → GoString)
    (keywords : List GoString) (file : Option (List GoString)) : List GoString :=
  match file with
  | none => keywords
  | some lines =>
    lines.foldl (fun keywords line => keywords ++ [TrimSpace unicodeTrim unicodeTrimRight line])
      keywords

/-- The function `interested`, with the global `keywords` as an argument. -/
def interested (unicodeLower : GoString → GoString) (keywords : List GoString)
    (torrent : torrent) : Bool :=
  if torrent.length < minLength then false
  else
    let name := ToLower unicodeLower torrent.name
    keywords.any (fun k => Contains name k)

/-! ## The on-disk layout (package `path`; torsniff.go, lines 257-284) -/

namespace Path

/-- The byte `/`. -/
def slash : UInt8 := 47

/-- The byte `.`. -/
def dot : UInt8 := 46

/-- The test `r == n || path[r] == '/'` on the unread part of the path. -/
def atElemEnd : GoString → Bool
  | [] => true
  | c :: _ => c == slash

/-- The step `out.w--; for out.w > dotdot && out.index(out.w) != '/' { out.w-- }` on the
written bytes, given in reverse (last written byte first). -/
def backtrack (dotdot : Nat) : GoString → GoString
  | [] => []
  | c :: cs => if cs.length > dotdot ∧ c ≠ slash then backtrack dotdot cs else cs

/-- One round of the loop of `path.Clean`, the `switch` statement, on the unread part
`c :: cs` of the path (`path[r:]`), the bytes `out` written so far and the index `dotdot`
where `..` must stop; it returns the new unread part, `out` and `dotdot`. -/
def cleanRound (rooted : Bool) (c : UInt8) (cs out : GoString) (dotdot : Nat) :
    GoString × GoString × Nat :=
  if c = slash then
    (cs, out, dotdot)
  else if c = dot ∧ atElemEnd cs then
    (cs, out, dotdot)
  else if c = dot ∧ cs.head? = some dot ∧ atElemEnd cs.tail then
    if out.length > dotdot then
      (cs.tail, (backtrack dotdot out.reverse).reverse, dotdot)
    else if !rooted then
      let out1 := (if out.length > 0 then out ++ [slash] else out) ++ [dot, dot]
      (cs.tail, out1, out1.length)
    else
      (cs.tail, out, dotdot)
  else
    let out1 :=
      if (rooted && out.length != 1) || (!rooted && out.length != 0) then out ++ [slash]
      else out
    ((c :: cs).dropWhile (fun x => x != slash),
      out1 ++ (c :: cs).takeWhile (fun x => x != slash), dotdot)

/-- The loop `for r < n` of `path.Clean`; the result is the final `out`. Every round
reads at least one byte, so `fuel ≥ rest.length` rounds finish the loop. -/
def cleanLoop (rooted : Bool) : Nat → GoString → GoString → Nat → GoString
  | 0, _, out, _ => out
  | _ + 1, [], out, _ => out
  | fuel + 1, c :: cs, out, dotdot =>
    let next := cleanRound rooted c cs out dotdot
    cleanLoop rooted fuel next.1 next.2.1 next.2.2

/-- The function `path.Clean`. -/
def Clean (path : GoString) : GoString :=
  match path with
  | [] => [dot]
  | c :: cs =>
    let rooted := c == slash
    let out :=
      if rooted then cleanLoop rooted cs.length cs [slash] 1
      else cleanLoop rooted (c :: cs).length (c :: cs) [] 0
    if out.length = 0 then [dot] else out

/-- The function `path.Join`. -/
def Join (elem : List GoString) : GoString :=
  let size := (elem.map List.length).sum
  if size = 0 then []
  else
    let buf := elem.foldl
      (fun (buf : GoString) e =>
        if buf.length > 0 ∨ e ≠ [] then (if buf.length > 0 then buf ++ [slash] else buf) ++ e
        else buf)
      []
    Clean buf

/-- A path element that `Clean` copies as it is: non-empty, without a slash, and not
starting with a dot. -/
def PlainElem (e : GoString) : Prop := e ≠ [] ∧ slash ∉ e ∧ e.head? ≠ some dot

/-- The output of the loop of `Clean` on the rooted path `/` followed by `xt`. -/
def rootedOut (xt : GoString) : GoString := cleanLoop true xt.length xt [slash] 1

/-- The output with the separator `Clean` writes before the next element. -/
def withSep (out : GoString) : GoString := if out.length = 1 then out else out ++ [slash]

end Path

/-- A slice expression `s[lo:hi]`; `none` is the run-time panic of an index out of range. -/
def slice (s : GoString) (lo hi : Nat) : Option GoString :=
  if lo ≤ hi ∧ hi ≤ s.length then some ((s.drop lo).take (hi - lo)) else none

/-- The method `torrentPath`, with the field `t.dir` as an argument; it returns the pair
`(name, dir)`, and `none` when a slice expression panics. -/
def torrentPath (tdir infohashHex : GoString) : Option (GoString × GoString) :=
  match slice infohashHex 0 2 with
  | none => none
  | some a =>
    match slice infohashHex 2 4 with
    | none => none
    | some b =>
      let dir := Path.Join [tdir, a, b]
      let name := Path.Join [dir, infohashHex ++ ascii ".torrent"]
      some (name, dir)

/-- What the file system answers to `saveTorrent`: whether `os.MkdirAll`,
`fileutil.TryLockFile` and `f.Write` succeed. -/
structure Disk where
  mkdirAll : GoString → Bool
  tryLockFile : GoString → Bool
  write : GoString → GoString → Bool

/-- The effect of one call of `saveTorrent`: an error return, or the bytes handed to
`f.Write` for the file `name`. -/
inductive Saved where
  | failed
  | wrote (name content : GoString)
deriving DecidableEq, Repr

/-- The method `saveTorrent`; `none` is a panic of `torrentPath`. -/
def saveTorrent (disk : Disk) (tdir infohashHex data : GoString) : Option Saved :=
  match torrentPath tdir infohashHex with
  | none => none
  | some (name, dir) =>
    if !disk.mkdirAll dir then some .failed
    else
      match Bencode.Decode data with
      | none => some .failed
      | some d =>
        if !disk.tryLockFile name then some .failed
        else
          let content := Bencode.Encode [(ascii "info", Value.dict d)]
          if !disk.write name content then some .failed
          else some (.wrote name content)

/-! ## The crawl supervisor (torsniff.go, lines 172-197 and 213-246) -/

/-- Where a worker stands in `work`: before the blacklist test, in `wire.fetch`, in
`parseTorrent` and the keyword filter, or in `saveTorrent`. -/
inductive Stage where
  | checking
  | fetching
  | parsing
  | saving
deriving DecidableEq, Repr

/-- The state of the supervisor: the number of elements in the channel `tokens` and the
goroutines started by `go t.work(ac, tokens)` that have not returned yet. -/
structure Crawl where
  tokens : Nat
  workers : List Stage
deriving DecidableEq, Repr

/-- The state in which `run` enters its loop: an empty channel and no worker. -/
def Crawl.init : Crawl := { tokens := 0, workers := [] }

/-- One step of the supervisor or of one worker. A send on the channel of capacity
`maxPeers` goes through only while the channel is not full, and the receive of the
deferred function only while it is not empty. -/
inductive Step (maxPeers : Nat) : Crawl → Crawl → Prop where
  /-- Lines 188-189: `tokens <- struct{}{}` followed by `go t.work(ac, tokens)`. -/
  | dispatch (s : Crawl) (h : s.tokens < maxPeers) :
      Step maxPeers s { tokens := s.tokens + 1, workers := s.workers ++ [Stage.checking] }
  /-- Lines 219-221: the peer is blacklisted, `return`, and the deferred `<-tokens`. -/
  | blacklisted (s : Crawl) (pre post : List Stage)
      (hw : s.workers = pre ++ Stage.checking :: post) (h : 0 < s.tokens) :
      Step maxPeers s { tokens := s.tokens - 1, workers := pre ++ post }
  /-- Lines 223-226: the peer is not blacklisted and the fetch starts. -/
  | startFetch (s : Crawl) (pre post : List Stage)
      (hw : s.workers = pre ++ Stage.checking :: post) :
      Step maxPeers s { s with workers := pre ++ Stage.fetching :: post }
  /-- Lines 227-230: the fetch fails, the peer is blacklisted, `return`, `<-tokens`. -/
  | fetchFailed (s : Crawl) (pre post : List Stage)
      (hw : s.workers = pre ++ Stage.fetching :: post) (h : 0 < s.tokens) :
      Step maxPeers s { tokens := s.tokens - 1, workers := pre ++ post }
  /-- Line 232: the fetch succeeds and the metadata goes to `parseTorrent`. -/
  | fetched (s : Crawl) (pre post : List Stage)
      (hw : s.workers = pre ++ Stage.fetching :: post) :
      Step maxPeers s { s with workers := pre ++ Stage.parsing :: post }
  /-- Lines 233-235: `parseTorrent` fails, `return`, `<-tokens`. -/
  | parseFailed (s : Crawl) (pre post : List Stage)
      (hw : s.workers = pre ++ Stage.parsing :: post) (h : 0 < s.tokens) :
      Step maxPeers s { tokens := s.tokens - 1, workers := pre ++ post }
  /-- Lines 236-238 and 246: the torrent is not interesting, the function ends, `<-tokens`. -/
  | notInterested (s : Crawl) (pre post : List Stage)
      (hw : s.workers = pre ++ Stage.parsing :: post) (h : 0 < s.tokens) :
      Step maxPeers s { tokens := s.tokens - 1, workers := pre ++ post }
  /-- Lines 238-240: the torrent is interesting and `saveTorrent` is called. -/
  | startSave (s : Crawl) (pre post : List Stage)
      (hw : s.workers = pre ++ Stage.parsing :: post) :
      Step maxPeers s { s with workers := pre ++ Stage.saving :: post }
  /-- Lines 240-242: `saveTorrent` fails, `return`, `<-tokens`. -/
  | saveFailed (s : Crawl) (pre post : List Stage)
      (hw : s.workers = pre ++ Stage.saving :: post) (h : 0 < s.tokens) :
      Step maxPeers s { tokens := s.tokens - 1, workers := pre ++ post }
  /-- Lines 240-246: `saveTorrent` succeeds, the function ends, `<-tokens`. -/
  | saved (s : Crawl) (pre post : List Stage)
      (hw : s.workers = pre ++ Stage.saving :: post) (h : 0 < s.tokens) :
      Step maxPeers s { tokens := s.tokens - 1, workers := pre ++ post }

/-- The states the supervisor can reach from its initial state. -/
inductive Reachable (maxPeers : Nat) : Crawl → Prop where
  | init : Reachable maxPeers Crawl.init
  | step (s s1 : Crawl) (hs : Reachable maxPeers s) (h : Step maxPeers s s1) :
      Reachable maxPeers s1

/-! ## Sample inputs -/

namespace Sample

/-- The UTF-8 bytes of the two-character name of scenario 5 of the specification. -/
def utf8Name : GoString := [0xE6, 0xAD, 0xA3, 0xE7, 0xA1, 0xAE]

/-- The bencoding of `{length: 20000000, name: "garbled", name.utf-8: <utf8Name>}`. -/
def garbledMeta : GoString :=
  ascii "d6:lengthi20000000e4:name7:garbled10:name.utf-86:" ++ utf8Name ++ ascii "e"

/-- The dictionary `garbledMeta` decodes to. -/
def garbledDict : Dict :=
  [(ascii "length", .int 20000000), (ascii "name", .str (ascii "garbled")),
   (ascii "name.utf-8", .str utf8Name)]

/-- The two entries of the `files` list of scenario 2 of the specification. -/
def albumFiles : List Value :=
  [.dict [(ascii "length", .int 20000000), (ascii "path", .list [.str (ascii "01.flac")])],
   .dict [(ascii "length", .int 500000),
          (ascii "path", .list [.str (ascii "cover"), .str (ascii "front.jpg")])]]

/-- The dictionary `{files: albumFiles, name: "album"}` of scenario 2. -/
def albumDict : Dict := [(ascii "files", .list albumFiles), (ascii "name", .str (ascii "album"))]

/-- The bencoding of `albumDict`. -/
def albumMeta : GoString :=
  ascii ("d5:filesld6:lengthi20000000e4:pathl7:01.flaceed6:lengthi500000e4:pathl5:cover" ++
    "9:front.jpgeee4:name5:albume")

/-- The bencoding of `{files: [{length: 3}], length: 5}`. -/
def bothLengthsMeta : GoString := ascii "d5:filesld6:lengthi3eee6:lengthi5ee"

/-- The dictionary `bothLengthsMeta` decodes to. -/
def bothLengthsDict : Dict :=
  [(ascii "files", .list [.dict [(ascii "length", .int 3)]]), (ascii "length", .int 5)]

/-- The bencoding of `{files: []}`. -/
def noFilesMeta : GoString := ascii "d5:fileslee"

/-- A bencoded dictionary whose keys are not in ascending order: `{b: 0, a: 0}`. -/
def unsortedMeta : GoString := ascii "d1:bi0e1:ai0ee"

/-- The dictionary `unsortedMeta` decodes to. -/
def unsortedDict : Dict := [(ascii "a", .int 0), (ascii "b", .int 0)]

/-- A file system on which every operation of `saveTorrent` succeeds. -/
def okDisk : Disk :=
  { mkdirAll := fun _ => true, tryLockFile := fun _ => true, write := fun _ _ => true }

/-- An info-hash in its hexadecimal form. -/
def hash : GoString := ascii "0123456789abcdef0123456789abcdef01234567"

end Sample

/-! ## Theorems -/

/-! ### `ByteCountSI` -/

/-- One round of the loop of `ByteCountSI`. -/
theorem byteCountLoop_unfold (n div : Int) (exp : Nat) :
    byteCountLoop n div exp =
      if n ≥ unit then byteCountLoop (n.tdiv unit) (wrap64 (div * unit)) (exp + 1)
      else (div, exp) := by
  rw [byteCountLoop]
  split <;> rfl

/-- A value of the `int64` range is not changed by the wrap-around. -/
theorem wrap64_of_isInt64 {x : Int} (h : IsInt64 x) : wrap64 x = x := by
  obtain ⟨h1, h2⟩ := h
  unfold wrap64
  rw [Int.emod_eq_of_lt (by omega) (by omega)]
  omega

/-- Invariant of the loop: entered with `div = 1024^(exp+1)` and `n = ⌊b / div⌋ ≥ 1`,
it leaves with the same relation between the final `div` and `exp`, the final `div`
being the largest power of 1024 not above `b`. -/
theorem byteCountLoop_spec (b : Int) (hb : b < 2 ^ 63) :
    ∀ (k : Nat) (n div : Int) (exp : Nat), n.toNat = k → 1 ≤ n →
      div = 1024 ^ (exp + 1) → n * div ≤ b → b < (n + 1) * div →
      ∃ div1 exp1, byteCountLoop n div exp = (div1, exp1) ∧
        div1 = 1024 ^ (exp1 + 1) ∧ div1 ≤ b ∧ b < 1024 * div1 := by
  intro k
  induction k using Nat.strong_induction_on with
  | _ k ih =>
    intro n div exp hk hn hdiv hlo hhi
    have hdpos : 0 < div := by rw [hdiv]; positivity
    rw [byteCountLoop_unfold]
    by_cases h : n ≥ unit
    · simp only [unit] at h
      rw [if_pos (by simpa [unit] using h)]
      have hq : n.tdiv unit = n / 1024 := Int.tdiv_eq_ediv (by omega) (by norm_num [unit])
      have hfit : IsInt64 (div * unit) := by
        constructor
        · have : 0 ≤ div * unit := by simp only [unit]; positivity
          omega
        · have : div * unit ≤ n * div := by
            simp only [unit]; nlinarith
          omega
      rw [hq, wrap64_of_isInt64 hfit]
      have hq1 : 1 ≤ n / 1024 := by omega
      have hmul : n / 1024 * 1024 ≤ n := Int.ediv_mul_le n (by norm_num)
      have hmul2 : n < (n / 1024 + 1) * 1024 := by
        have := Int.lt_ediv_add_one_mul_self n (show (0 : Int) < 1024 by norm_num)
        linarith
      refine ih (n / 1024).toNat (by omega) (n / 1024) (div * unit) (exp + 1) rfl hq1 ?_ ?_ ?_
      · rw [hdiv]; simp only [unit]; ring
      · simp only [unit]
        calc n / 1024 * (div * 1024) = (n / 1024 * 1024) * div := by ring
          _ ≤ n * div := by
            exact Int.mul_le_mul_of_nonneg_right hmul hdpos.le
          _ ≤ b := hlo
      · simp only [unit]
        have h1 : n + 1 ≤ (n / 1024 + 1) * 1024 := by omega
        calc b < (n + 1) * div := hhi
          _ ≤ ((n / 1024 + 1) * 1024) * div := Int.mul_le_mul_of_nonneg_right h1 hdpos.le
          _ = (n / 1024 + 1) * (div * 1024) := by ring
    · rw [if_neg h]
      simp only [unit, ge_iff_le, not_le] at h
      refine ⟨div, exp, rfl, hdiv, ?_, ?_⟩
      · calc div = 1 * div := by ring
          _ ≤ n * div := Int.mul_le_mul_of_nonneg_right hn hdpos.le
          _ ≤ b := hlo
      · have h1 : n + 1 ≤ 1024 := by omega
        calc b < (n + 1) * div := hhi
          _ ≤ 1024 * div := Int.mul_le_mul_of_nonneg_right h1 hdpos.le

/-- C10: for every `int64` value `b`, `ByteCountSI b` returns (the index expression
never panics); below 1024, negative numbers included, the result is the decimal of `b`
followed by `B`; from 1024 on, the loop ends with `exp ≤ 5` and `div = 1024^(exp+1)`,
a value the `int64` products reached without wrapping, with `div ≤ b < 1024·div`, and
the unit letter is the byte at index `exp` of `kMGTPE`. -/
theorem ByteCountSI_safe (b : Int) (hb : IsInt64 b) :
    (b < 1024 → ByteCountSI b = some (.plain (fmtInt b ++ ascii "B"))) ∧
    (1024 ≤ b → ∃ (div : Int) (exp : Nat) (letter : UInt8),
        byteCountLoop (b.tdiv unit) unit 0 = (div, exp) ∧
        exp ≤ 5 ∧ div = 1024 ^ (exp + 1) ∧ IsInt64 div ∧ div ≤ b ∧ b < 1024 * div ∧
        (ascii "kMGTPE")[exp]? = some letter ∧
        ByteCountSI b = some (.scaled b div letter)) := by
  obtain ⟨hlo, hhi⟩ := hb
  constructor
  · intro h
    simp [ByteCountSI, unit, h]
  · intro h
    have hq : b.tdiv unit = b / 1024 := Int.tdiv_eq_ediv (by omega) (by norm_num [unit])
    have hmul : b / 1024 * 1024 ≤ b := Int.ediv_mul_le b (by norm_num)
    have hmul2 : b < (b / 1024 + 1) * 1024 := by
      have := Int.lt_ediv_add_one_mul_self b (show (0 : Int) < 1024 by norm_num)
      linarith
    obtain ⟨div, exp, hloop, hdiv, hle, hlt⟩ :=
      byteCountLoop_spec b hhi (b / 1024).toNat (b / 1024) unit 0 rfl (by omega)
        (by norm_num [unit]) (by simpa [unit] using hmul) (by simpa [unit] using hmul2)
    have hexp : exp ≤ 5 := by
      by_contra hc
      have h7 : (1024 : Int) ^ 7 ≤ 1024 ^ (exp + 1) :=
        pow_le_pow_right₀ (by norm_num) (by omega)
      have : (2 : Int) ^ 63 < 1024 ^ 7 := by norm_num
      omega
    have hletter : ∃ letter, (ascii "kMGTPE")[exp]? = some letter := by
      interval_cases exp <;> exact ⟨_, rfl⟩
    obtain ⟨letter, hl⟩ := hletter
    refine ⟨div, exp, letter, ?_, hexp, hdiv, ⟨by omega, by omega⟩, hle, hlt, hl, ?_⟩
    · rw [hq]; exact hloop
    · have hnot : ¬ b < unit := by simp only [unit]; omega
      simp only [ByteCountSI, if_neg hnot, hq, hloop, hl]

/-- The claim C10 at `b = 20500000`: the loop stops at `exp = 1`, `div = 1024²`, letter `M`. -/
theorem ByteCountSI_safe_witness :
    IsInt64 20500000 ∧
    ((20500000 : Int) < 1024 → ByteCountSI 20500000 = some (.plain (fmtInt 20500000 ++ ascii "B"))) ∧
    ((1024 : Int) ≤ 20500000 → ∃ (div : Int) (exp : Nat) (letter : UInt8),
        byteCountLoop ((20500000 : Int).tdiv unit) unit 0 = (div, exp) ∧
        exp ≤ 5 ∧ div = 1024 ^ (exp + 1) ∧ IsInt64 div ∧ div ≤ 20500000 ∧ 20500000 < 1024 * div ∧
        (ascii "kMGTPE")[exp]? = some letter ∧
        ByteCountSI 20500000 = some (.scaled 20500000 div letter)) :=
  ⟨⟨by norm_num, by norm_num⟩, ByteCountSI_safe 20500000 ⟨by norm_num, by norm_num⟩⟩

/-! ### `parseTorrent` -/

/-- An `int64` sum does not depend on whether its first operand was wrapped already. -/
theorem wrap64_add_wrap64 (a b : Int) : wrap64 (wrap64 a + b) = wrap64 (a + b) := by
  unfold wrap64
  have h : ((a + 2 ^ 63) % 2 ^ 64 - 2 ^ 63 + b + 2 ^ 63) = ((a + 2 ^ 63) % 2 ^ 64 + b) := by ring
  rw [h, Int.emod_add_emod]
  congr 2
  ring

/-- Zero is not changed by the wrap-around. -/
theorem wrap64_zero : wrap64 0 = 0 := by decide

/-- What the loop over `files` leaves in `t.files`, from any starting state: one entry
per dictionary element, appended in list order. -/
theorem foldl_extract_files (files : List Value) (state : Int × List tfile) :
    (files.foldl
      (fun state file =>
        match asMap (some file) with
        | some f => extractFiles state f
        | none => state) state).2 =
      state.2 ++ (files.filterMap (fun v => asMap (some v))).map
        (fun f => { name := fileName f,
                    length := (asInt64 (f.index (ascii "length"))).getD 0 }) := by
  induction files generalizing state with
  | nil => simp
  | cons v vs ih =>
    rw [List.foldl_cons, ih]
    cases hv : asMap (some v) with
    | none => simp [hv]
    | some f =>
      simp only [List.filterMap_cons, hv, List.map_cons]
      cases hl : asInt64 (f.index (ascii "length")) with
      | none => simp [extractFiles, hl]
      | some n => simp [extractFiles, hl]

/-- What the loop over `files` leaves in `totalSize`: the `int64` sum of the lengths of
the entries it appended, provided it started from such a sum. -/
theorem foldl_extract_total (files : List Value) (state : Int × List tfile)
    (h : state.1 = wrap64 (state.2.map (fun e => e.length)).sum) :
    let final := files.foldl
      (fun state file =>
        match asMap (some file) with
        | some f => extractFiles state f
        | none => state) state
    final.1 = wrap64 (final.2.map (fun e => e.length)).sum := by
  induction files generalizing state with
  | nil => simpa using h
  | cons v vs ih =>
    simp only [List.foldl_cons]
    apply ih
    cases hv : asMap (some v) with
    | none => simpa using h
    | some f =>
      simp only
      cases hl : asInt64 (f.index (ascii "length")) with
      | none => simp [extractFiles, hl, h]
      | some n =>
        simp only [extractFiles, hl, List.map_append, List.sum_append, List.map_cons,
          List.map_nil, List.sum_cons, List.sum_nil, add_zero]
        rw [h, wrap64_add_wrap64]

/-- The entries the loop over `files` appends to the empty `t.files`. -/
theorem extractAll_files (files : List Value) :
    (extractAll files).2 = (files.filterMap (fun v => asMap (some v))).map
        (fun f => { name := fileName f,
                    length := (asInt64 (f.index (ascii "length"))).getD 0 }) := by
  unfold extractAll
  rw [foldl_extract_files]
  simp

/-- The `totalSize` the loop over `files` computes from zero. -/
theorem extractAll_total (files : List Value) :
    (extractAll files).1 = wrap64 ((extractAll files).2.map (fun e => e.length)).sum := by
  unfold extractAll
  exact foldl_extract_total files (0, []) (by simp [wrap64_zero])

/-- C7: when the metadata decodes, the name of the parsed torrent is the value of
`name.utf-8` if that key holds a byte string (whatever `name` holds), else the value of
`name` if that key holds a byte string, else the empty string. -/
theorem parseTorrent_name (Decode : GoString → Option Dict) (meta infohashHex : GoString)
    (dict : Dict) (h : Decode meta = some dict) :
    ∃ t, parseTorrent Decode meta infohashHex = some t ∧
      (∀ s, dict.index (ascii "name.utf-8") = some (.str s) → t.name = s) ∧
      ((∀ s, dict.index (ascii "name.utf-8") ≠ some (.str s)) →
        ∀ s, dict.index (ascii "name") = some (.str s) → t.name = s) ∧
      ((∀ s, dict.index (ascii "name.utf-8") ≠ some (.str s)) →
        (∀ s, dict.index (ascii "name") ≠ some (.str s)) → t.name = []) := by
  refine ⟨_, by rw [parseTorrent, h], ?_, ?_, ?_⟩
  · intro s hs
    simp [hs, asString]
  · intro hno s hs
    have h1 : asString (dict.index (ascii "name.utf-8")) = none := by
      cases hx : dict.index (ascii "name.utf-8") with
      | none => rfl
      | some v =>
        cases v with
        | str x => exact absurd hx (hno x)
        | _ => rfl
    simp [h1, hs, asString]
  · intro hno hno2
    have h1 : asString (dict.index (ascii "name.utf-8")) = none := by
      cases hx : dict.index (ascii "name.utf-8") with
      | none => rfl
      | some v =>
        cases v with
        | str x => exact absurd hx (hno x)
        | _ => rfl
    have h2 : asString (dict.index (ascii "name")) = none := by
      cases hx : dict.index (ascii "name") with
      | none => rfl
      | some v =>
        cases v with
        | str x => exact absurd hx (hno2 x)
        | _ => rfl
    simp [h1, h2]

/-- Scenario 5 of the specification under C7: `garbledMeta` decodes to a dictionary with
both keys, and the parsed name is the value of `name.utf-8`. -/
theorem parseTorrent_name_witness :
    Bencode.Decode Sample.garbledMeta = some Sample.garbledDict ∧
    ∃ t, parseTorrent Bencode.Decode Sample.garbledMeta Sample.hash = some t ∧
      (∀ s, Sample.garbledDict.index (ascii "name.utf-8") = some (.str s) → t.name = s) ∧
      ((∀ s, Sample.garbledDict.index (ascii "name.utf-8") ≠ some (.str s)) →
        ∀ s, Sample.garbledDict.index (ascii "name") = some (.str s) → t.name = s) ∧
      ((∀ s, Sample.garbledDict.index (ascii "name.utf-8") ≠ some (.str s)) →
        (∀ s, Sample.garbledDict.index (ascii "name") ≠ some (.str s)) → t.name = []) :=
  ⟨rfl, parseTorrent_name Bencode.Decode Sample.garbledMeta Sample.hash Sample.garbledDict rfl⟩

/-- C2: when the metadata decodes, the parsed torrent has at least one file entry; and
when the `files` key yields no entry (it is absent, or not a list, or a list without a
dictionary element), the entries are exactly the one synthetic entry made of the
name and the length of the torrent. -/
theorem parseTorrent_files_nonempty (Decode : GoString → Option Dict)
    (meta infohashHex : GoString) (dict : Dict) (h : Decode meta = some dict) :
    ∃ t, parseTorrent Decode meta infohashHex = some t ∧ 1 ≤ t.files.length ∧
      ((∀ files, dict.index (ascii "files") = some (.list files) →
          ∀ file ∈ files, ∀ d, file ≠ .dict d) →
        t.files = [{ name := t.name, length := t.length }]) := by
  refine ⟨_, by rw [parseTorrent, h], ?_, ?_⟩
  · simp only
    split
    · simp
    · omega
  · intro hnone
    simp only
    rw [if_pos]
    cases hx : asList (dict.index (ascii "files")) with
    | none => simp
    | some files =>
      have hfiles : dict.index (ascii "files") = some (.list files) := by
        cases hy : dict.index (ascii "files") with
        | none => simp [hy, asList] at hx
        | some v =>
          cases v with
          | list l => simp [hy, asList] at hx; rw [hx]
          | _ => simp [hy, asList] at hx
      simp only [extractAll_files, List.length_map, List.length_eq_zero,
        List.filterMap_eq_nil_iff]
      intro v hv
      cases v with
      | dict d => exact absurd rfl (hnone files hfiles _ hv d)
      | _ => rfl

/-- The claim C2 at scenario 5 of the specification, a single-file torrent: the one
entry is the synthetic one. -/
theorem parseTorrent_files_nonempty_witness :
    Bencode.Decode Sample.garbledMeta = some Sample.garbledDict ∧
    ∃ t, parseTorrent Bencode.Decode Sample.garbledMeta Sample.hash = some t ∧
      1 ≤ t.files.length ∧
      ((∀ files, Sample.garbledDict.index (ascii "files") = some (.list files) →
          ∀ file ∈ files, ∀ d, file ≠ .dict d) →
        t.files = [{ name := t.name, length := t.length }]) :=
  ⟨rfl, parseTorrent_files_nonempty Bencode.Decode Sample.garbledMeta Sample.hash
    Sample.garbledDict rfl⟩

/-- The path of a file entry: the printed elements of `path.utf-8` joined with `/` when
that key holds a list, else those of `path` when that key holds a list, else the empty
string; and a byte string is printed as it is. -/
theorem fileName_spec :
    (∀ (f : Dict) (l : List Value), f.index (ascii "path.utf-8") = some (.list l) →
      fileName f = Join (l.map Sprint) (ascii "/")) ∧
    (∀ (f : Dict) (l : List Value), (∀ u, f.index (ascii "path.utf-8") ≠ some (.list u)) →
      f.index (ascii "path") = some (.list l) → fileName f = Join (l.map Sprint) (ascii "/")) ∧
    (∀ f : Dict, (∀ u, f.index (ascii "path.utf-8") ≠ some (.list u)) →
      (∀ u, f.index (ascii "path") ≠ some (.list u)) → fileName f = []) ∧
    (∀ s : GoString, Sprint (.str s) = s) := by
  refine ⟨?_, ?_, ?_, ?_⟩
  · intro f l h
    simp [fileName, h, asList]
  · intro f l hno h
    have h1 : asList (f.index (ascii "path.utf-8")) = none := by
      cases hx : f.index (ascii "path.utf-8") with
      | none => rfl
      | some v =>
        cases v with
        | list x => exact absurd hx (hno x)
        | _ => rfl
    simp [fileName, h1, h, asList]
  · intro f hno hno2
    have h1 : asList (f.index (ascii "path.utf-8")) = none := by
      cases hx : f.index (ascii "path.utf-8") with
      | none => rfl
      | some v =>
        cases v with
        | list x => exact absurd hx (hno x)
        | _ => rfl
    have h2 : asList (f.index (ascii "path")) = none := by
      cases hx : f.index (ascii "path") with
      | none => rfl
      | some v =>
        cases v with
        | list x => exact absurd hx (hno2 x)
        | _ => rfl
    simp [fileName, h1, h2]
  · intro s
    simp [Sprint]

/-- C1, the counterexample: `{files: [{length: 3}], length: 5}` has a `files` list, and
it parses to a torrent of length 5 whose one entry has length 3. -/
theorem parseTorrent_length_counterexample :
    Bencode.Decode Sample.bothLengthsMeta = some Sample.bothLengthsDict ∧
    Sample.bothLengthsDict.index (ascii "files") =
      some (.list [.dict [(ascii "length", .int 3)]]) ∧
    ∃ t, parseTorrent Bencode.Decode Sample.bothLengthsMeta Sample.hash = some t ∧
      t.length = 5 ∧ (t.files.map (fun e => e.length)).sum = 3 ∧
      t.length ≠ (t.files.map (fun e => e.length)).sum :=
  ⟨rfl, rfl, _, rfl, by decide, by decide, by decide⟩

/-- C1, amended: when the metadata decodes to a dictionary with a `files` list and the
dictionary has no non-zero `int64` under `length`, the length of the parsed torrent is the
`int64` sum of the lengths of its file entries (the sum itself when that fits an
`int64`); when it has a non-zero `int64` under `length`, the length is that number. -/
theorem parseTorrent_length (Decode : GoString → Option Dict) (meta infohashHex : GoString)
    (dict : Dict) (files : List Value) (h : Decode meta = some dict)
    (hf : dict.index (ascii "files") = some (.list files)) :
    ∃ t, parseTorrent Decode meta infohashHex = some t ∧
      ((∀ n, dict.index (ascii "length") = some (.int n) → IsInt64 n → n = 0) →
        t.length = wrap64 (t.files.map (fun e => e.length)).sum ∧
        (IsInt64 (t.files.map (fun e => e.length)).sum →
          t.length = (t.files.map (fun e => e.length)).sum)) ∧
      (∀ n, dict.index (ascii "length") = some (.int n) → IsInt64 n → n ≠ 0 →
        t.length = n) := by
  refine ⟨_, by rw [parseTorrent, h], ?_, ?_⟩
  · intro hzero
    have hlen : (match asInt64 (dict.index (ascii "length")) with
        | some length => length
        | none => 0) = 0 := by
      cases hx : dict.index (ascii "length") with
      | none => rfl
      | some v =>
        cases v with
        | int n =>
          by_cases hr : IsInt64 n
          · have h0 : n = 0 := hzero n hx hr
            subst h0
            simp [asInt64, hr]
          · simp [asInt64, hr]
        | _ => rfl
    refine (and_iff_left_of_imp (fun hsum hfit => hsum.trans (wrap64_of_isInt64 hfit))).mpr ?_
    simp only [hlen, hf, asList, if_true]
    by_cases he : (extractAll files).2.length = 0
    · have h0 : (extractAll files).1 = 0 := by
        rw [extractAll_total, List.length_eq_zero.mp he]; exact wrap64_zero
      simp only [if_pos he, h0, List.map_cons, List.map_nil, List.sum_cons, List.sum_nil,
        add_zero]
      exact wrap64_zero.symm
    · simp only [if_neg he]; exact extractAll_total files
  · intro n hn hr hne
    simp [hn, asInt64, hr, hne]

/-- The amended claim C1 at scenario 2 of the specification: no `length` key, two entries,
and the length is their sum 20500000. -/
theorem parseTorrent_length_witness :
    Bencode.Decode Sample.albumMeta = some Sample.albumDict ∧
    Sample.albumDict.index (ascii "files") = some (.list Sample.albumFiles) ∧
    ∃ t, parseTorrent Bencode.Decode Sample.albumMeta Sample.hash = some t ∧
      ((∀ n, Sample.albumDict.index (ascii "length") = some (.int n) → IsInt64 n → n = 0) →
        t.length = wrap64 (t.files.map (fun e => e.length)).sum ∧
        (IsInt64 (t.files.map (fun e => e.length)).sum →
          t.length = (t.files.map (fun e => e.length)).sum)) ∧
      (∀ n, Sample.albumDict.index (ascii "length") = some (.int n) → IsInt64 n → n ≠ 0 →
        t.length = n) :=
  ⟨rfl, rfl, parseTorrent_length Bencode.Decode Sample.albumMeta Sample.hash Sample.albumDict
    Sample.albumFiles rfl rfl⟩

/-- C6, the counterexample: `{files: []}` has a `files` list without any dictionary
element, and it parses to a torrent with one file entry (the synthetic one). -/
theorem parseTorrent_files_counterexample :
    Bencode.Decode Sample.noFilesMeta = some [(ascii "files", .list [])] ∧
    (([] : List Value).filterMap (fun v => asMap (some v))).length = 0 ∧
    ∃ t, parseTorrent Bencode.Decode Sample.noFilesMeta Sample.hash = some t ∧
      t.files = [{ name := [], length := 0 }] ∧ t.files.length = 1 :=
  ⟨rfl, rfl, _, rfl, by decide, by decide⟩

/-- C6, amended: when the metadata decodes to a dictionary whose `files` list has at
least one dictionary element, the parsed torrent has exactly one file entry per dictionary
element of that list, in list order, the other elements being skipped; the path of an
entry is `fileName` of its dictionary (see `fileName_spec`: the elements of `path.utf-8`,
else of `path`, joined with `/`) and its length is the `int64` under `length`, 0 when
there is none. -/
theorem parseTorrent_files (Decode : GoString → Option Dict) (meta infohashHex : GoString)
    (dict : Dict) (files : List Value) (h : Decode meta = some dict)
    (hf : dict.index (ascii "files") = some (.list files))
    (hd : ∃ v ∈ files, ∃ d, v = .dict d) :
    ∃ t, parseTorrent Decode meta infohashHex = some t ∧
      t.files = (files.filterMap (fun v => asMap (some v))).map
        (fun f => { name := fileName f,
                    length := (asInt64 (f.index (ascii "length"))).getD 0 }) ∧
      (∀ f ∈ files.filterMap (fun v => asMap (some v)),
        (∀ l, f.index (ascii "path.utf-8") = some (.list l) →
          fileName f = Join (l.map Sprint) (ascii "/")) ∧
        (∀ l, (∀ u, f.index (ascii "path.utf-8") ≠ some (.list u)) →
          f.index (ascii "path") = some (.list l) →
          fileName f = Join (l.map Sprint) (ascii "/"))) := by
  refine ⟨_, by rw [parseTorrent, h], ?_, ?_⟩
  · simp only [hf, asList]
    rw [if_neg, extractAll_files]
    rw [extractAll_files]
    obtain ⟨v, hv, d, rfl⟩ := hd
    intro hzero
    simp only [List.length_map, List.length_eq_zero, List.filterMap_eq_nil_iff] at hzero
    have := hzero _ hv
    simp [asMap] at this
  · intro f _
    exact ⟨fileName_spec.1 f, fileName_spec.2.1 f⟩

/-- The amended claim C6 at scenario 2 of the specification: two dictionary elements, the
entries `01.flac` (20000000) and `cover/front.jpg` (500000), total length 20500000. -/
theorem parseTorrent_files_witness :
    Bencode.Decode Sample.albumMeta = some Sample.albumDict ∧
    Sample.albumDict.index (ascii "files") = some (.list Sample.albumFiles) ∧
    (∃ v ∈ Sample.albumFiles, ∃ d, v = .dict d) ∧
    (∃ t, parseTorrent Bencode.Decode Sample.albumMeta Sample.hash = some t ∧
      t.files = (Sample.albumFiles.filterMap (fun v => asMap (some v))).map
        (fun f => { name := fileName f,
                    length := (asInt64 (f.index (ascii "length"))).getD 0 }) ∧
      (∀ f ∈ Sample.albumFiles.filterMap (fun v => asMap (some v)),
        (∀ l, f.index (ascii "path.utf-8") = some (.list l) →
          fileName f = Join (l.map Sprint) (ascii "/")) ∧
        (∀ l, (∀ u, f.index (ascii "path.utf-8") ≠ some (.list u)) →
          f.index (ascii "path") = some (.list l) →
          fileName f = Join (l.map Sprint) (ascii "/")))) ∧
    parseTorrent Bencode.Decode Sample.albumMeta Sample.hash =
      some { infohashHex := Sample.hash, name := ascii "album", length := 20500000,
             files := [{ name := ascii "01.flac", length := 20000000 },
                       { name := ascii "cover/front.jpg", length := 500000 }] } :=
  ⟨rfl, rfl, ⟨_, List.mem_cons_self _ _, _, rfl⟩,
    parseTorrent_files Bencode.Decode Sample.albumMeta Sample.hash Sample.albumDict
      Sample.albumFiles rfl rfl ⟨_, List.mem_cons_self _ _, _, rfl⟩,
    by decide⟩

/-! ### The keyword filter -/

/-- The function `strings.Contains` decides whether `substr` is a contiguous part of `s`. -/
theorem Contains_iff (s substr : GoString) : Contains s substr = true ↔ substr <:+: s := by
  induction s with
  | nil =>
    cases substr with
    | nil => simp [Contains]
    | cons c cs => simp [Contains]
  | cons c cs ih =>
    rw [Contains, Bool.or_eq_true, ih, List.infix_cons_iff, List.isPrefixOf_iff_prefix]

/-- C4: `interested` holds exactly for a torrent of at least 10 MiB whose lower-cased
name has one of the keywords as a contiguous part; so it fails below 10 MiB whatever the
keywords are, and it fails for the empty keyword list. Its result is a function of the
keyword list and of the name and the length of the torrent alone. -/
theorem interested_iff (unicodeLower : GoString → GoString) (keywords : List GoString)
    (t : torrent) :
    (interested unicodeLower keywords t = true ↔
      10 * 1024 * 1024 ≤ t.length ∧ ∃ k ∈ keywords, k <:+: ToLower unicodeLower t.name) ∧
    (t.length < 10 * 1024 * 1024 → interested unicodeLower keywords t = false) ∧
    interested unicodeLower [] t = false ∧
    (∀ u : torrent, u.name = t.name → u.length = t.length →
      interested unicodeLower keywords u = interested unicodeLower keywords t) := by
  refine ⟨?_, ?_, ?_, ?_⟩
  · unfold interested minLength
    by_cases hlen : t.length < 10 * 1024 * 1024
    · simp only [if_pos hlen]
      constructor
      · intro hf; exact absurd hf (by simp)
      · rintro ⟨h1, _⟩; omega
    · simp only [if_neg hlen, List.any_eq_true, Contains_iff]
      constructor
      · rintro ⟨k, hk, hc⟩; exact ⟨by omega, k, hk, hc⟩
      · rintro ⟨_, k, hk, hc⟩; exact ⟨k, hk, hc⟩
  · intro hlen
    unfold interested minLength
    simp only [if_pos hlen]
  · unfold interested
    split <;> simp
  · intro u hn hl
    unfold interested
    rw [hn, hl]

/-- C5, the code at a keyword line with a capital letter: `readKeywords` stores the
line `Ubuntu` as it is, and `interested` then rejects the 3 GB torrent `ubuntu-22.04.iso`,
which the same keyword in lower case accepts. -/
theorem interested_capital_keyword (unicodeLower unicodeTrim unicodeTrimRight :
    GoString → GoString) :
    readKeywords unicodeTrim unicodeTrimRight [] (some [ascii "Ubuntu"]) = [ascii "Ubuntu"] ∧
    interested unicodeLower
      (readKeywords unicodeTrim unicodeTrimRight [] (some [ascii "Ubuntu"]))
      { infohashHex := Sample.hash, name := ascii "ubuntu-22.04.iso", length := 3000000000,
        files := [{ name := ascii "ubuntu-22.04.iso", length := 3000000000 }] } = false ∧
    interested unicodeLower
      (readKeywords unicodeTrim unicodeTrimRight [] (some [ascii "ubuntu"]))
      { infohashHex := Sample.hash, name := ascii "ubuntu-22.04.iso", length := 3000000000,
        files := [{ name := ascii "ubuntu-22.04.iso", length := 3000000000 }] } = true :=
  ⟨rfl, rfl, rfl⟩

/-! ### The crawl supervisor -/

/-- C9: in every state the supervisor reaches, the workers started and not yet finished
are as many as the tokens held in the channel, and these are at most `maxPeers`. -/
theorem crawl_invariant (maxPeers : Nat) (s : Crawl) (h : Reachable maxPeers s) :
    s.workers.length = s.tokens ∧ s.tokens ≤ maxPeers := by
  induction h with
  | init => simp [Crawl.init]
  | step s s1 _ hstep ih =>
    obtain ⟨heq, hle⟩ := ih
    cases hstep with
    | dispatch hlt =>
      simp only [List.length_append, List.length_singleton]
      omega
    | blacklisted pre post hw hpos | fetchFailed pre post hw hpos
    | parseFailed pre post hw hpos | notInterested pre post hw hpos
    | saveFailed pre post hw hpos | saved pre post hw hpos =>
      rw [hw] at heq
      simp only [List.length_append, List.length_cons] at heq ⊢
      omega
    | startFetch pre post hw | fetched pre post hw | startSave pre post hw =>
      rw [hw] at heq
      simp only [List.length_append, List.length_cons] at heq ⊢
      omega

/-- The claim C9 with `maxPeers = 2`, after two dispatches and the start of one fetch. -/
theorem crawl_invariant_witness :
    Reachable 2 { tokens := 2, workers := [Stage.fetching, Stage.checking] } ∧
    ([Stage.fetching, Stage.checking].length = 2 ∧ 2 ≤ 2) :=
  have h0 : Reachable 2 Crawl.init := Reachable.init
  have h1 : Reachable 2 { tokens := 1, workers := [Stage.checking] } :=
    Reachable.step _ _ h0 (Step.dispatch Crawl.init (by decide))
  have h2 : Reachable 2 { tokens := 2, workers := [Stage.checking, Stage.checking] } :=
    Reachable.step _ _ h1 (Step.dispatch _ (by decide))
  have h3 : Reachable 2 { tokens := 2, workers := [Stage.fetching, Stage.checking] } :=
    Reachable.step _ _ h2 (Step.startFetch _ [] [Stage.checking] rfl)
  ⟨h3, crawl_invariant 2 _ h3⟩

/-! ### The on-disk layout -/

namespace Path

/-- The loop of `Clean` ends when nothing is left to read. -/
theorem cleanLoop_nil (rooted : Bool) (fuel : Nat) (out : GoString) (dotdot : Nat) :
    cleanLoop rooted fuel [] out dotdot = out := by
  cases fuel <;> rfl

/-- The loop of `Clean` runs one round and goes on from its result. -/
theorem cleanLoop_succ (rooted : Bool) (fuel : Nat) (c : UInt8) (cs out : GoString)
    (dotdot : Nat) :
    cleanLoop rooted (fuel + 1) (c :: cs) out dotdot =
      cleanLoop rooted fuel (cleanRound rooted c cs out dotdot).1
        (cleanRound rooted c cs out dotdot).2.1 (cleanRound rooted c cs out dotdot).2.2 := rfl

/-- The test for the end of an element looks at one byte at most. -/
theorem atElemEnd_append (cs tail : GoString) :
    atElemEnd (cs ++ slash :: tail) = atElemEnd cs := by
  cases cs <;> simp [atElemEnd]

/-- Dropping bytes does not make a string longer. -/
theorem dropWhile_length_le (f : UInt8 → Bool) (l : GoString) :
    (l.dropWhile f).length ≤ l.length := by
  induction l with
  | nil => simp
  | cons c cs ih =>
    rw [List.dropWhile_cons]
    split
    · simp only [List.length_cons]; omega
    · simp

/-- Copying an element stops at the first slash, also at an appended one. -/
theorem takeWhile_append_slash (l tail : GoString) :
    (l ++ slash :: tail).takeWhile (fun x => x != slash) = l.takeWhile (fun x => x != slash) ∧
    (l ++ slash :: tail).dropWhile (fun x => x != slash) =
      l.dropWhile (fun x => x != slash) ++ slash :: tail := by
  induction l with
  | nil => simp
  | cons c cs ih =>
    by_cases hc : c = slash
    · simp [hc]
    · simp [List.takeWhile_cons, List.dropWhile_cons, hc, ih.1, ih.2]

/-- A round reads at least the first byte of the unread part. -/
theorem cleanRound_length (rooted : Bool) (c : UInt8) (cs out : GoString) (dotdot : Nat) :
    (cleanRound rooted c cs out dotdot).1.length ≤ cs.length := by
  unfold cleanRound
  split
  · exact le_refl _
  · split
    · exact le_refl _
    · split
      · have : cs.tail.length ≤ cs.length := by simp
        split
        · exact this
        · split <;> exact this
      · rename_i hc _ _
        rw [List.dropWhile_cons]
        have : (c != slash) = true := by simp [hc]
        rw [if_pos this]
        exact dropWhile_length_le _ cs

/-- A round decides in the same way when the unread part is followed by a slash and
further bytes: these stay unread. -/
theorem cleanRound_append (rooted : Bool) (c : UInt8) (cs out tail : GoString) (dotdot : Nat) :
    cleanRound rooted c (cs ++ slash :: tail) out dotdot =
      ((cleanRound rooted c cs out dotdot).1 ++ slash :: tail,
        (cleanRound rooted c cs out dotdot).2.1, (cleanRound rooted c cs out dotdot).2.2) := by
  have hhead : (cs ++ slash :: tail).head? = some dot ∧ atElemEnd (cs ++ slash :: tail).tail = true ↔
      cs.head? = some dot ∧ atElemEnd cs.tail = true := by
    cases cs with
    | nil => simp [slash, dot]
    | cons d ds => simp [atElemEnd_append]
  have htail : (cs ++ slash :: tail).head? = some dot → (cs ++ slash :: tail).tail = cs.tail ++ slash :: tail := by
    cases cs with
    | nil => simp [slash, dot]
    | cons d ds => simp
  unfold cleanRound
  simp only [atElemEnd_append]
  by_cases h1 : c = slash
  · simp [h1]
  · simp only [if_neg h1]
    by_cases h2 : c = dot ∧ atElemEnd cs = true
    · simp [h2]
    · simp only [if_neg h2]
      by_cases h3 : c = dot ∧ cs.head? = some dot ∧ atElemEnd cs.tail = true
      · have h3e : c = dot ∧ (cs ++ slash :: tail).head? = some dot ∧
            atElemEnd (cs ++ slash :: tail).tail = true := ⟨h3.1, hhead.mpr h3.2⟩
        rw [if_pos h3, if_pos h3e, htail h3e.2.1]
        split
        · rfl
        · split <;> rfl
      · have h3e : ¬ (c = dot ∧ (cs ++ slash :: tail).head? = some dot ∧
            atElemEnd (cs ++ slash :: tail).tail = true) := fun h => h3 ⟨h.1, hhead.mp h.2⟩
        rw [if_neg h3, if_neg h3e]
        have := takeWhile_append_slash (c :: cs) tail
        rw [List.cons_append] at this
        rw [this.1, this.2]

/-- Reading a part `p` of the path that is followed by a slash goes as reading `p` alone:
the loop reaches the slash with the output it gives for `p`. -/
theorem cleanLoop_prefix (rooted : Bool) :
    ∀ (n : Nat) (p out : GoString) (dotdot : Nat), p.length ≤ n →
      ∃ (out1 : GoString) (dd1 : Nat),
        (∀ fuel, p.length ≤ fuel → cleanLoop rooted fuel p out dotdot = out1) ∧
        (∀ (tail : GoString) (fuel : Nat), p.length + (1 + tail.length) ≤ fuel →
          ∃ fuel1, 1 + tail.length ≤ fuel1 ∧
            cleanLoop rooted fuel (p ++ slash :: tail) out dotdot =
              cleanLoop rooted fuel1 (slash :: tail) out1 dd1) := by
  intro n
  induction n with
  | zero =>
    intro p out dotdot hp
    have : p = [] := List.length_eq_zero.mp (by omega)
    subst this
    exact ⟨out, dotdot, fun fuel _ => cleanLoop_nil _ _ _ _,
      fun tail fuel hf => ⟨fuel, by simpa using hf, rfl⟩⟩
  | succ n ih =>
    intro p out dotdot hp
    cases p with
    | nil =>
      exact ⟨out, dotdot, fun fuel _ => cleanLoop_nil _ _ _ _,
        fun tail fuel hf => ⟨fuel, by simpa using hf, rfl⟩⟩
    | cons c cs =>
      have hlen := cleanRound_length rooted c cs out dotdot
      simp only [List.length_cons] at hp
      obtain ⟨out1, dd1, h1, h2⟩ := ih (cleanRound rooted c cs out dotdot).1
        (cleanRound rooted c cs out dotdot).2.1 (cleanRound rooted c cs out dotdot).2.2
        (by omega)
      refine ⟨out1, dd1, ?_, ?_⟩
      · intro fuel hf
        simp only [List.length_cons] at hf
        obtain ⟨f, rfl⟩ : ∃ f, fuel = f + 1 := ⟨fuel - 1, by omega⟩
        rw [cleanLoop_succ]
        exact h1 f (by omega)
      · intro tail fuel hf
        simp only [List.length_cons] at hf
        obtain ⟨f, rfl⟩ : ∃ f, fuel = f + 1 := ⟨fuel - 1, by omega⟩
        rw [List.cons_append, cleanLoop_succ, cleanRound_append]
        exact h2 tail f (by omega)

/-- The separator is written after any output but the bare root. -/
theorem withSep_of_ne (out : GoString) (h : out.length ≠ 1) : withSep out = out ++ [slash] := by
  unfold withSep
  rw [if_neg h]

/-- An element without a slash is copied whole. -/
theorem takeWhile_plain (e : GoString) (he : slash ∉ e) :
    e.takeWhile (fun x => x != slash) = e ∧ e.dropWhile (fun x => x != slash) = [] := by
  induction e with
  | nil => simp
  | cons c cs ih =>
    have hc : c ≠ slash := fun h => he (by simp [h])
    have hcs : slash ∉ cs := fun h => he (by simp [h])
    simp [List.takeWhile_cons, List.dropWhile_cons, hc, ih hcs]

/-- One round of the loop on a plain last element: a slash is written unless the output is
the bare root, then the element is copied. -/
theorem cleanRound_plain (c : UInt8) (cs out : GoString) (dotdot : Nat)
    (he : PlainElem (c :: cs)) :
    cleanRound true c cs out dotdot = ([], withSep out ++ c :: cs, dotdot) := by
  obtain ⟨_, hs, hd⟩ := he
  have hc : c ≠ slash := fun h => hs (by simp [h])
  have hcd : c ≠ dot := fun h => hd (by simp [h])
  obtain ⟨h1, h2⟩ := takeWhile_plain (c :: cs) hs
  unfold cleanRound withSep
  simp only [hc, hcd, if_false, false_and]
  rw [h1, h2]
  by_cases hl : out.length = 1 <;> simp [hl]

/-- The loop of `Clean` on `/` followed by one plain element. -/
theorem rootedOut_plain (e : GoString) (he : PlainElem e) : rootedOut e = slash :: e := by
  cases e with
  | nil => exact absurd rfl he.1
  | cons c cs =>
    unfold rootedOut
    rw [List.length_cons, cleanLoop_succ, cleanRound_plain c cs _ _ he]
    simp [cleanLoop_nil, withSep]

/-- The loop of `Clean` on a rooted path followed by a slash and a plain element: the
output for the path, the separator and the element. -/
theorem rootedOut_append (xt e : GoString) (he : PlainElem e) :
    rootedOut (xt ++ slash :: e) = withSep (rootedOut xt) ++ e := by
  obtain ⟨out1, dd1, h1, h2⟩ := cleanLoop_prefix true xt.length xt [slash] 1 (le_refl _)
  obtain ⟨fuel1, hf, heq⟩ := h2 e (xt ++ slash :: e).length (by simp only [List.length_append, List.length_cons]; omega)
  unfold rootedOut
  rw [heq, h1 xt.length (le_refl _)]
  cases e with
  | nil => exact absurd rfl he.1
  | cons c cs =>
    simp only [List.length_cons] at hf
    obtain ⟨f, rfl⟩ : ∃ f, fuel1 = f + 2 := ⟨fuel1 - 2, by omega⟩
    rw [cleanLoop_succ]
    have hs : cleanRound true slash (c :: cs) out1 dd1 = (c :: cs, out1, dd1) := by
      simp [cleanRound]
    rw [hs]
    simp only
    rw [cleanLoop_succ, cleanRound_plain c cs _ _ he]
    simp [cleanLoop_nil]

/-- The function `Clean` on a rooted path, through the output of its loop. -/
theorem Clean_rooted (xt : GoString) :
    Clean (slash :: xt) = if (rootedOut xt).length = 0 then [dot] else rootedOut xt := by
  simp [Clean, rootedOut]

/-- The loop returns a rooted path that `Clean` leaves alone. -/
theorem rootedOut_of_clean (xt : GoString) (h : Clean (slash :: xt) = slash :: xt) :
    rootedOut xt = slash :: xt := by
  rw [Clean_rooted] at h
  split at h
  · simp [slash, dot] at h
  · exact h

/-- The function `Join` on a rooted clean directory and two plain elements. -/
theorem Join_three (xt a b : GoString) (hclean : Clean (slash :: xt) = slash :: xt)
    (ha : PlainElem a) (hb : PlainElem b) :
    Join [slash :: xt, a, b] = withSep (slash :: xt) ++ a ++ slash :: b := by
  have hbuf : Join [slash :: xt, a, b] = Clean (slash :: (xt ++ slash :: a ++ slash :: b)) := by
    simp [Join]
  rw [hbuf, Clean_rooted, List.append_assoc, List.cons_append]
  have h1 : rootedOut (xt ++ slash :: (a ++ slash :: b)) =
      withSep (slash :: xt) ++ a ++ slash :: b := by
    have := rootedOut_append (xt ++ slash :: a) b hb
    rw [rootedOut_append xt a ha, rootedOut_of_clean xt hclean] at this
    rw [List.append_assoc, List.cons_append] at this
    rw [this]
    have hl : (withSep (slash :: xt) ++ a).length ≠ 1 := by
      have h0 : a.length ≠ 0 := fun h => ha.1 (List.length_eq_zero.mp h)
      have h2 : 1 ≤ (withSep (slash :: xt)).length := by
        unfold withSep
        split <;> simp
      rw [List.length_append]
      omega
    rw [withSep_of_ne _ hl]
    simp
  rw [h1, if_neg]
  simp

/-- The directory `Join` builds from a rooted clean directory and two plain elements is
itself rooted and left alone by the loop of `Clean`. -/
theorem joined_rooted (xt a b : GoString) (hclean : Clean (slash :: xt) = slash :: xt)
    (ha : PlainElem a) (hb : PlainElem b) :
    ∃ yt, withSep (slash :: xt) ++ a ++ slash :: b = slash :: yt ∧ yt ≠ [] ∧
      rootedOut yt = slash :: yt := by
  have hal : a.length ≠ 0 := fun h => ha.1 (List.length_eq_zero.mp h)
  by_cases hx : xt = []
  · subst hx
    refine ⟨a ++ slash :: b, by simp [withSep], by simp, ?_⟩
    rw [rootedOut_append a b hb, rootedOut_plain a ha, withSep_of_ne]
    · simp
    · simp only [List.length_cons]; omega
  · have hl : (slash :: xt).length ≠ 1 := by
      simp only [List.length_cons]
      have : xt.length ≠ 0 := fun h => hx (List.length_eq_zero.mp h)
      omega
    refine ⟨xt ++ slash :: a ++ slash :: b, by simp [withSep_of_ne _ hl], by simp, ?_⟩
    rw [rootedOut_append (xt ++ slash :: a) b hb, rootedOut_append xt a ha,
      rootedOut_of_clean xt hclean, withSep_of_ne _ hl, withSep_of_ne]
    · simp
    · simp only [List.length_append, List.length_cons, List.length_nil]; omega

/-- The function `Join` on a rooted directory that the loop of `Clean` leaves alone, and
one plain element. -/
theorem Join_two (yt e : GoString) (hy : rootedOut yt = slash :: yt) (hne : yt ≠ [])
    (he : PlainElem e) :
    Join [slash :: yt, e] = slash :: yt ++ slash :: e := by
  have hbuf : Join [slash :: yt, e] = Clean (slash :: (yt ++ slash :: e)) := by
    simp [Join]
  have hl : (slash :: yt).length ≠ 1 := by
    simp only [List.length_cons]
    have : yt.length ≠ 0 := fun h => hne (List.length_eq_zero.mp h)
    omega
  rw [hbuf, Clean_rooted, rootedOut_append yt e he, hy, withSep_of_ne _ hl, if_neg]
  · simp
  · simp

/-- A lower-case hexadecimal digit is neither a slash nor a dot. -/
theorem hex_plain : ∀ c ∈ ascii "0123456789abcdef", c ≠ slash ∧ c ≠ dot := by decide

end Path

/-- C8: for a clean absolute directory root `tdir` and a 40-character lower-case
hexadecimal info-hash `h`, both slice expressions of `torrentPath` are in range and the
method returns the directory `tdir/h[0:2]/h[2:4]` (directly under `/` when `tdir` is the
root itself) and the file name made of that directory, a slash and `h.torrent`, a last
element without a slash: the directory is the parent of the file name. -/
theorem torrentPath_layout (tdir h : GoString)
    (habs : tdir.head? = some Path.slash) (hclean : Path.Clean tdir = tdir)
    (hlen : h.length = 40) (hhex : ∀ c ∈ h, c ∈ ascii "0123456789abcdef") :
    slice h 0 2 = some (h.take 2) ∧ slice h 2 4 = some ((h.drop 2).take 2) ∧
    ∃ name dir, torrentPath tdir h = some (name, dir) ∧
      (tdir ≠ [Path.slash] →
        dir = tdir ++ Path.slash :: h.take 2 ++ Path.slash :: (h.drop 2).take 2) ∧
      (tdir = [Path.slash] →
        dir = Path.slash :: h.take 2 ++ Path.slash :: (h.drop 2).take 2) ∧
      name = dir ++ Path.slash :: (h ++ ascii ".torrent") ∧
      Path.slash ∉ h ++ ascii ".torrent" := by
  have hs1 : slice h 0 2 = some (h.take 2) := by
    unfold slice
    rw [if_pos (by omega)]
    simp
  have hs2 : slice h 2 4 = some ((h.drop 2).take 2) := by
    unfold slice
    rw [if_pos (by omega)]
  obtain ⟨xt, rfl⟩ : ∃ xt, tdir = Path.slash :: xt := by
    cases tdir with
    | nil => simp at habs
    | cons c cs => simp at habs; exact ⟨cs, by rw [habs]⟩
  have hplain : ∀ e : GoString, e ≠ [] → (∀ c ∈ e, c ∈ h) → Path.PlainElem e := by
    intro e hne hsub
    refine ⟨hne, fun hm => (Path.hex_plain _ (hhex _ (hsub _ hm))).1 rfl, ?_⟩
    cases e with
    | nil => exact absurd rfl hne
    | cons c cs =>
      intro hd
      simp only [List.head?_cons, Option.some.injEq] at hd
      exact (Path.hex_plain _ (hhex _ (hsub c (List.mem_cons_self _ _)))).2 hd
  have hla : (h.take 2).length = 2 := by rw [List.length_take]; omega
  have hlb : ((h.drop 2).take 2).length = 2 := by
    rw [List.length_take, List.length_drop]; omega
  have ha : Path.PlainElem (h.take 2) :=
    hplain _ (by intro h0; rw [h0] at hla; simp at hla)
      (fun c hc => List.mem_of_mem_take hc)
  have hb : Path.PlainElem ((h.drop 2).take 2) :=
    hplain _ (by intro h0; rw [h0] at hlb; simp at hlb)
      (fun c hc => List.mem_of_mem_drop (List.mem_of_mem_take hc))
  have hnoslash : Path.slash ∉ h ++ ascii ".torrent" := by
    intro hm
    rcases List.mem_append.mp hm with h1 | h1
    · exact (Path.hex_plain _ (hhex _ h1)).1 rfl
    · revert h1; decide
  have he : Path.PlainElem (h ++ ascii ".torrent") := by
    refine ⟨by intro h0; have := congrArg List.length h0; simp only [List.length_append, List.length_nil] at this; omega, hnoslash, ?_⟩
    cases h with
    | nil => simp at hlen
    | cons c cs =>
      intro hd
      simp only [List.cons_append, List.head?_cons, Option.some.injEq] at hd
      exact (Path.hex_plain _ (hhex c (List.mem_cons_self _ _))).2 hd
  obtain ⟨yt, hyt, hyne, hyr⟩ := Path.joined_rooted xt _ _ hclean ha hb
  have hdir := Path.Join_three xt _ _ hclean ha hb
  refine ⟨hs1, hs2, _, _, by rw [torrentPath, hs1, hs2], ?_, ?_, ?_, hnoslash⟩
  · intro hroot
    rw [hdir, Path.withSep_of_ne]
    · simp
    · intro hl
      apply hroot
      simp only [List.length_cons, add_left_eq_self, List.length_eq_zero] at hl
      rw [hl]
  · intro hroot
    rw [hdir, hroot]
    simp [Path.withSep]
  · rw [hdir, hyt]
    exact Path.Join_two yt _ hyr hyne he

/-- The claim C8 for the directory `/srv/torrents`: the hypotheses hold there, and the
method returns `/srv/torrents/01/23` and the file `0123...4567.torrent` in it. -/
theorem torrentPath_layout_witness :
    (ascii "/srv/torrents").head? = some Path.slash ∧
    Path.Clean (ascii "/srv/torrents") = ascii "/srv/torrents" ∧
    Sample.hash.length = 40 ∧
    (∀ c ∈ Sample.hash, c ∈ ascii "0123456789abcdef") ∧
    (slice Sample.hash 0 2 = some (Sample.hash.take 2) ∧
      slice Sample.hash 2 4 = some ((Sample.hash.drop 2).take 2) ∧
      ∃ name dir, torrentPath (ascii "/srv/torrents") Sample.hash = some (name, dir) ∧
        (ascii "/srv/torrents" ≠ [Path.slash] →
          dir = ascii "/srv/torrents" ++ Path.slash :: Sample.hash.take 2 ++
            Path.slash :: (Sample.hash.drop 2).take 2) ∧
        (ascii "/srv/torrents" = [Path.slash] →
          dir = Path.slash :: Sample.hash.take 2 ++ Path.slash :: (Sample.hash.drop 2).take 2) ∧
        name = dir ++ Path.slash :: (Sample.hash ++ ascii ".torrent") ∧
        Path.slash ∉ Sample.hash ++ ascii ".torrent") ∧
    torrentPath (ascii "/srv/torrents") Sample.hash =
      some (ascii "/srv/torrents/01/23/0123456789abcdef0123456789abcdef01234567.torrent",
        ascii "/srv/torrents/01/23") :=
  ⟨by decide, by decide, by decide, by decide,
    torrentPath_layout (ascii "/srv/torrents") Sample.hash (by decide) (by decide) (by decide)
      (by decide),
    by decide⟩

/-! ### The bencode codec -/

namespace Bencode

/-- The byte `'0' + k` is a digit, and its value is `k`. -/
theorem digit_byte : ∀ k, k < 10 →
    isDigit (UInt8.ofNat (48 + k)) = true ∧ (UInt8.ofNat (48 + k)).toNat - 48 = k := by
  decide

/-- The digits written for `n`: a non-empty run of digits whose value is `n`. -/
theorem digitsAux_spec : ∀ (fuel n : Nat), n < fuel →
    ∃ D : GoString, (∀ acc, digitsAux fuel n acc = D ++ acc) ∧ D ≠ [] ∧
      (∀ c ∈ D, isDigit c = true) ∧
      D.foldl (fun a c => a * 10 + (c.toNat - 48)) 0 = n := by
  intro fuel
  induction fuel with
  | zero => intro n h; omega
  | succ fuel ih =>
    intro n h
    by_cases hn : n < 10
    · refine ⟨[UInt8.ofNat (48 + n)], ?_, by simp, ?_, ?_⟩
      · intro acc; simp [digitsAux, hn]
      · intro c hc
        rw [List.mem_singleton.mp hc]
        exact (digit_byte n hn).1
      · simp only [List.foldl_cons, List.foldl_nil, zero_mul, zero_add]
        exact (digit_byte n hn).2
    · obtain ⟨D, hD, _, hdig, hval⟩ := ih (n / 10) (by omega)
      have hlt : n % 10 < 10 := Nat.mod_lt _ (by norm_num)
      refine ⟨D ++ [UInt8.ofNat (48 + n % 10)], ?_, by simp, ?_, ?_⟩
      · intro acc
        simp [digitsAux, hn, hD]
      · intro c hc
        rcases List.mem_append.mp hc with h1 | h1
        · exact hdig c h1
        · rw [List.mem_singleton.mp h1]
          exact (digit_byte _ hlt).1
      · rw [List.foldl_append, hval]
        simp only [List.foldl_cons, List.foldl_nil]
        rw [(digit_byte _ hlt).2]
        omega

/-- A run of digits followed by a non-digit is read whole, with its value. -/
theorem readDigits_run (D : GoString) (hD : ∀ c ∈ D, isDigit c = true) (rest : GoString)
    (hr : stops rest) (acc : Nat) :
    readDigits (D ++ rest) acc = (D.foldl (fun a c => a * 10 + (c.toNat - 48)) acc, rest) := by
  induction D generalizing acc with
  | nil =>
    cases rest with
    | nil => rfl
    | cons c cs => simp [readDigits, hr c cs rfl]
  | cons d ds ih =>
    have hd : isDigit d = true := hD d (List.mem_cons_self _ _)
    simp only [List.cons_append, readDigits, hd, if_true, List.foldl_cons]
    exact ih (fun c hc => hD c (List.mem_cons_of_mem _ hc)) _

/-- The digits `natDigits` writes start with a digit and are read back as the number. -/
theorem readNat_natDigits (n : Nat) (rest : GoString) (hr : stops rest) :
    readNat (natDigits n ++ rest) = some (n, rest) ∧
    ∃ c cs, natDigits n = c :: cs ∧ isDigit c = true := by
  obtain ⟨D, hD, hne, hdig, hval⟩ := digitsAux_spec (n + 1) n (by omega)
  have hnd : natDigits n = D := by
    unfold natDigits
    rw [hD]; simp
  cases hc : D with
  | nil => exact absurd hc hne
  | cons c cs =>
    have hcd : isDigit c = true := hdig c (by rw [hc]; exact List.mem_cons_self _ _)
    refine ⟨?_, c, cs, by rw [hnd, hc], hcd⟩
    rw [hnd]
    have := readDigits_run D hdig rest hr 0
    rw [hval, hc] at this
    rw [hc]
    simp only [List.cons_append, readNat, hcd, if_true]
    rw [← List.cons_append, this]

/-- Input starting with a non-digit byte ends a run of digits. -/
theorem stops_cons (c : UInt8) (cs : GoString) (h : isDigit c = false) : stops (c :: cs) := by
  intro d ds hd
  simp only [List.cons.injEq] at hd
  rw [← hd.1]; exact h

/-- A byte string is read back from its encoding. -/
theorem readString_encode (s rest : GoString) :
    readString (natDigits s.length ++ 58 :: s ++ rest) = some (s, rest) := by
  have h := (readNat_natDigits s.length (58 :: s ++ rest) (stops_cons _ _ (by decide))).1
  unfold readString
  rw [List.append_assoc, h]
  simp

/-- An integer is read back from its decimal form followed by `e`. -/
theorem readInt_fmtInt (i : Int) (rest : GoString) :
    readInt (fmtInt i ++ 101 :: rest) = some (i, rest) := by
  unfold fmtInt
  by_cases hi : i < 0
  · rw [if_pos hi]
    have h := (readNat_natDigits (-i).toNat (101 :: rest) (stops_cons _ _ (by decide))).1
    simp only [List.cons_append, readInt, if_true, h]
    simp only [if_true, Option.some.injEq, Prod.mk.injEq, and_true]
    omega
  · rw [if_neg hi]
    obtain ⟨h, c, cs, hc, hcd⟩ :=
      readNat_natDigits i.toNat (101 :: rest) (stops_cons _ _ (by decide))
    have hne : c ≠ 45 := by
      intro h45; rw [h45] at hcd; exact absurd hcd (by decide)
    rw [hc] at h ⊢
    simp only [List.cons_append, readInt, if_neg hne] at h ⊢
    rw [h]
    simp only [if_true, Option.some.injEq, Prod.mk.injEq, and_true]
    omega


/-- A digit is none of the bytes `i`, `l`, `d`, `e`. -/
theorem digit_ne (c : UInt8) (h : isDigit c = true) :
    c ≠ 105 ∧ c ≠ 108 ∧ c ≠ 100 ∧ c ≠ 101 := by
  refine ⟨?_, ?_, ?_, ?_⟩ <;> (rintro rfl; exact absurd h (by decide))

/-- An encoding is never empty and never starts with the closing `e`. -/
theorem encodeValue_head (v : Value) :
    ∃ c cs, encodeValue v = c :: cs ∧ c ≠ 101 := by
  cases v with
  | str s =>
    obtain ⟨_, c, cs, hc, hcd⟩ := readNat_natDigits s.length [] (fun _ _ h => by simp at h)
    exact ⟨c, cs ++ 58 :: s, by simp [encodeValue, hc], (digit_ne c hcd).2.2.2⟩
  | int i => exact ⟨105, fmtInt i ++ [101], by simp only [encodeValue, List.cons_append], by decide⟩
  | list l => exact ⟨108, encodeElems l ++ [101], by simp only [encodeValue, List.cons_append], by decide⟩
  | dict d => exact ⟨100, encodeEntries d ++ [101], by simp only [encodeValue, List.cons_append], by decide⟩

/-- Entries in ascending key order are the map they build. -/
theorem buildDict_ascending : ∀ (d : List (GoString × Value)), ascending d = true →
    buildDict d = some d
  | [], _ => rfl
  | [(k, v)], _ => by simp [buildDict, insertEntry]
  | (k, v) :: (k2, v2) :: es, h => by
    simp only [ascending, Bool.and_eq_true] at h
    have ih := buildDict_ascending ((k2, v2) :: es) h.2
    rw [buildDict, ih]
    simp [insertEntry, h.1]

mutual
/-- The decoder reads a canonical value back from its encoding, in both modes, with
fuel for the length of the encoding, and leaves the bytes after it unread. -/
theorem decodeValue_encode (strict : Bool) :
    ∀ (v : Value) (fuel : Nat) (rest : GoString), canonical v = true →
      (encodeValue v).length ≤ fuel →
      decodeValue strict fuel (encodeValue v ++ rest) = some (v, rest)
  | .str s, fuel, rest, _, hf => by
    obtain ⟨_, c, cs, hc, hcd⟩ := readNat_natDigits s.length [] (fun _ _ h => by simp at h)
    obtain ⟨h1, h2, h3, _⟩ := digit_ne c hcd
    have hs := readString_encode s rest
    simp only [encodeValue, hc, List.cons_append, List.length_cons] at hf hs ⊢
    obtain ⟨f, rfl⟩ : ∃ f, fuel = f + 1 := ⟨fuel - 1, by omega⟩
    simp only [decodeValue, if_neg h1, if_neg h2, if_neg h3]
    rw [List.append_assoc] at hs ⊢
    simp only [List.cons_append] at hs ⊢
    rw [hs]
  | .int i, fuel, rest, _, hf => by
    simp only [encodeValue, List.cons_append, List.length_cons] at hf ⊢
    obtain ⟨f, rfl⟩ : ∃ f, fuel = f + 1 := ⟨fuel - 1, by omega⟩
    have := readInt_fmtInt i rest
    simp only [decodeValue, if_true, List.append_assoc, List.singleton_append, this]
  | .list l, fuel, rest, hc, hf => by
    simp only [encodeValue, List.cons_append, List.length_cons, List.length_append,
      List.length_singleton] at hf ⊢
    obtain ⟨f, rfl⟩ : ∃ f, fuel = f + 1 := ⟨fuel - 1, by omega⟩
    have := decodeElems_encode strict l f rest (by simpa [canonical] using hc) (by omega)
    have h1 : (108 : UInt8) ≠ 105 := by decide
    simp only [decodeValue, if_neg h1, if_true, List.append_assoc, List.singleton_append, this]
  | .dict d, fuel, rest, hc, hf => by
    simp only [encodeValue, List.cons_append, List.length_cons, List.length_append,
      List.length_singleton] at hf ⊢
    obtain ⟨f, rfl⟩ : ∃ f, fuel = f + 1 := ⟨fuel - 1, by omega⟩
    simp only [canonical, Bool.and_eq_true] at hc
    have := decodeEntries_encode strict d f rest hc.2 (by omega)
    have h1 : (100 : UInt8) ≠ 105 := by decide
    have h2 : (100 : UInt8) ≠ 108 := by decide
    simp only [decodeValue, if_neg h1, if_neg h2, if_true, List.append_assoc,
      List.singleton_append, this, hc.1, buildDict_ascending d hc.1]
    simp
/-- The elements of a list are read back up to the closing `e`. -/
theorem decodeElems_encode (strict : Bool) :
    ∀ (l : List Value) (fuel : Nat) (rest : GoString), canonicalElems l = true →
      (encodeElems l).length + 1 ≤ fuel →
      decodeElems strict fuel (encodeElems l ++ 101 :: rest) = some (l, rest)
  | [], fuel, rest, _, hf => by
    obtain ⟨f, rfl⟩ : ∃ f, fuel = f + 1 := ⟨fuel - 1, by simp [encodeElems] at hf; omega⟩
    simp [encodeElems, decodeElems]
  | v :: vs, fuel, rest, hc, hf => by
    obtain ⟨c, cs, hv, hne⟩ := encodeValue_head v
    simp only [canonicalElems, Bool.and_eq_true] at hc
    simp only [encodeElems, List.length_append] at hf
    have hlen : 1 ≤ (encodeValue v).length := by rw [hv]; simp
    obtain ⟨f, rfl⟩ : ∃ f, fuel = f + 1 := ⟨fuel - 1, by omega⟩
    have h1 := decodeValue_encode strict v f (encodeElems vs ++ 101 :: rest) hc.1 (by omega)
    have h2 := decodeElems_encode strict vs f rest hc.2 (by omega)
    rw [hv] at h1
    simp only [encodeElems, hv, List.cons_append, List.append_assoc, decodeElems, if_neg hne]
    simp only [List.cons_append] at h1
    rw [h1]
    simp only [h2]
/-- The entries of a dictionary are read back, in order, up to the closing `e`. -/
theorem decodeEntries_encode (strict : Bool) :
    ∀ (d : List (GoString × Value)) (fuel : Nat) (rest : GoString),
      canonicalEntries d = true → (encodeEntries d).length + 1 ≤ fuel →
      decodeEntries strict fuel (encodeEntries d ++ 101 :: rest) = some (d, rest)
  | [], fuel, rest, _, hf => by
    obtain ⟨f, rfl⟩ : ∃ f, fuel = f + 1 := ⟨fuel - 1, by simp [encodeEntries] at hf; omega⟩
    simp [encodeEntries, decodeEntries]
  | (k, v) :: es, fuel, rest, hc, hf => by
    obtain ⟨_, c, cs, hk, hcd⟩ := readNat_natDigits k.length [] (fun _ _ h => by simp at h)
    have hne : c ≠ 101 := (digit_ne c hcd).2.2.2
    simp only [canonicalEntries, Bool.and_eq_true] at hc
    simp only [encodeEntries, List.length_append, List.length_cons] at hf
    obtain ⟨f, rfl⟩ : ∃ f, fuel = f + 1 := ⟨fuel - 1, by omega⟩
    have h0 := readString_encode k (encodeValue v ++ (encodeEntries es ++ 101 :: rest))
    have h1 := decodeValue_encode strict v f (encodeEntries es ++ 101 :: rest) hc.1 (by omega)
    have h2 := decodeEntries_encode strict es f rest hc.2 (by omega)
    rw [hk] at h0
    simp only [List.cons_append, List.append_assoc] at h0
    simp only [encodeEntries, hk, List.cons_append, List.append_assoc, decodeEntries,
      if_neg hne]
    rw [h0]
    simp only [h1, h2]
end

/-- The round trip of the codec: a canonical dictionary is decoded back from its
encoding, in the tolerant and in the strict mode. -/
theorem decodeTop_Encode (strict : Bool) (d : Dict) (hc : canonical (.dict d) = true) :
    decodeTop strict (Encode d) = some d := by
  unfold decodeTop Encode
  have := decodeValue_encode strict (.dict d) ((encodeValue (.dict d)).length + 1) [] hc
    (by omega)
  rw [List.append_nil] at this
  rw [this]

end Bencode

/-- C3, the counterexample: the metadata `d1:bi0e1:ai0ee`, whose keys are not in
ascending order, decodes; encoding the decoded dictionary gives other bytes, and the
`info` value `saveTorrent` writes is `d1:ai0e1:bi0ee`, not the metadata. -/
theorem saveTorrent_counterexample :
    Bencode.Decode Sample.unsortedMeta = some Sample.unsortedDict ∧
    Bencode.Encode Sample.unsortedDict = ascii "d1:ai0e1:bi0ee" ∧
    Bencode.Encode Sample.unsortedDict ≠ Sample.unsortedMeta ∧
    saveTorrent Sample.okDisk (ascii "/srv/torrents") Sample.hash Sample.unsortedMeta =
      some (.wrote
        (ascii "/srv/torrents/01/23/0123456789abcdef0123456789abcdef01234567.torrent")
        (ascii "d4:infod1:ai0e1:bi0eee")) ∧
    ascii "d4:infod1:ai0e1:bi0eee" ≠ ascii "d4:info" ++ Sample.unsortedMeta ++ ascii "e" :=
  ⟨rfl, by decide, by decide, by decide, by decide⟩

/-- C3, amended: when the metadata is the canonical bencoding of a dictionary `d` (keys
in ascending order at every level) and its SHA-1 is `h`, the bytes `saveTorrent` writes are
`d4:info`, the metadata, `e`: the bencoding of the one-key dictionary with `d` under
`info`, which decodes to that dictionary; the encoded `info` value is the metadata, byte
for byte, and its SHA-1 is `h`. -/
theorem saveTorrent_info (sha1 : GoString → GoString) (disk : Disk)
    (tdir infohashHex meta h name content : GoString) (d : Dict)
    (hcanon : Bencode.canonical (.dict d) = true) (hmeta : meta = Bencode.Encode d)
    (hhash : sha1 meta = h)
    (hsave : saveTorrent disk tdir infohashHex meta = some (.wrote name content)) :
    content = ascii "d4:info" ++ meta ++ ascii "e" ∧
    content = Bencode.Encode [(ascii "info", .dict d)] ∧
    Bencode.Decode content = some [(ascii "info", .dict d)] ∧
    Bencode.Encode d = meta ∧ sha1 (Bencode.Encode d) = h := by
  subst hmeta
  have hdec : Bencode.Decode (Bencode.Encode d) = some d := Bencode.decodeTop_Encode false d hcanon
  have hcontent : content = Bencode.Encode [(ascii "info", .dict d)] := by
    unfold saveTorrent at hsave
    cases hp : torrentPath tdir infohashHex with
    | none => rw [hp] at hsave; exact absurd hsave (by simp)
    | some nd =>
      rw [hp] at hsave
      simp only [hdec] at hsave
      split_ifs at hsave
      all_goals simp only [Option.some.injEq, Saved.wrote.injEq, reduceCtorEq] at hsave
      exact hsave.2.symm
  have hcanon2 : Bencode.canonical (.dict [(ascii "info", .dict d)]) = true := by
    simp only [Bencode.canonical, Bencode.canonicalEntries, Bencode.ascending, Bool.and_true,
      Bool.true_and] at hcanon ⊢
    exact hcanon
  refine ⟨?_, hcontent, ?_, rfl, hhash⟩
  · rw [hcontent]
    have hpre : natDigits (ascii "info").length ++ 58 :: ascii "info" = ascii "4:info" := by
      decide
    have hd4 : ascii "d4:info" = 100 :: ascii "4:info" := by decide
    have he : ascii "e" = [101] := by decide
    simp only [Bencode.Encode, Bencode.encodeValue, Bencode.encodeEntries, hpre, hd4, he]
    simp
  · rw [hcontent]
    exact Bencode.decodeTop_Encode false _ hcanon2

/-- The amended claim C3 at scenario 2 of the specification, on a file system where every
operation succeeds (the hash function is instantiated with the identity). -/
theorem saveTorrent_info_witness :
    Bencode.canonical (.dict Sample.albumDict) = true ∧
    Sample.albumMeta = Bencode.Encode Sample.albumDict ∧
    saveTorrent Sample.okDisk (ascii "/srv/torrents") Sample.hash Sample.albumMeta =
      some (.wrote
        (ascii "/srv/torrents/01/23/0123456789abcdef0123456789abcdef01234567.torrent")
        (ascii "d4:info" ++ Sample.albumMeta ++ ascii "e")) ∧
    (ascii "d4:info" ++ Sample.albumMeta ++ ascii "e" =
        ascii "d4:info" ++ Sample.albumMeta ++ ascii "e" ∧
      ascii "d4:info" ++ Sample.albumMeta ++ ascii "e" =
        Bencode.Encode [(ascii "info", .dict Sample.albumDict)] ∧
      Bencode.Decode (ascii "d4:info" ++ Sample.albumMeta ++ ascii "e") =
        some [(ascii "info", .dict Sample.albumDict)] ∧
      Bencode.Encode Sample.albumDict = Sample.albumMeta ∧
      id (Bencode.Encode Sample.albumDict) = Sample.albumMeta) :=
  ⟨by decide, by decide, by decide,
    saveTorrent_info id Sample.okDisk (ascii "/srv/torrents") Sample.hash Sample.albumMeta
      Sample.albumMeta
      (ascii "/srv/torrents/01/23/0123456789abcdef0123456789abcdef01234567.torrent")
      (ascii "d4:info" ++ Sample.albumMeta ++ ascii "e") Sample.albumDict
      (by decide) (by decide) rfl (by decide)⟩

end Torsniff
